import Mathlib

/-!
Verification development for the peak-boundary consensus and feature-assembly
core of the peakonly pipeline (`src/utils/run_utils.py`).

The Python code is shallowly embedded: Python lists become `List`, float
arithmetic becomes exact rational arithmetic over `ℚ`, NumPy integer arrays of
zeros and ones become `List (List Nat)`, Python `dict`s keyed by sample names
become association lists, and code paths that raise (`assert`, `KeyError`,
indexing an empty array) return `Option.none`.  Python slice semantics
(negative indices counting from the end, clamping at the ends) are embedded
explicitly, since the border-voting code relies on them.
-/

namespace Peakonly

/-- A border is a half-open interval `[begin, end)` in scan-index units.
Scan coordinates can be shifted by alignment offsets, so they live in `ℤ`. -/
abbrev Border := Int × Int

/-- Python's normalization of a slice endpoint for a sequence of length `L`:
a negative index counts from the end (clamped below at 0), a non-negative
index is clamped above at `L`. -/
def pyNorm (x : Int) (L : Nat) : Nat :=
  if x < 0 then ((L : Int) + x).toNat else min x.toNat L

/-- Python slice `l[a:b]` (step 1), with negative indices and clamping. -/
def pySlice {α : Type} (l : List α) (a b : Int) : List α :=
  let a' := pyNorm a l.length
  let b' := pyNorm b l.length
  (l.drop a').take (b' - a')

/-- Elementwise `+1` on the positions `[lo, hi)` of a rational array
(the effect of NumPy's `array[lo:hi] += 1` once the slice ends are
normalized).  Positions are counted from the head of the list. -/
def incrSeg : List ℚ → Nat → Nat → List ℚ
  | [], _, _ => []
  | x :: xs, lo, hi =>
      (if lo = 0 ∧ 0 < hi then x + 1 else x) :: incrSeg xs (lo - 1) (hi - 1)

/-- NumPy's `array[a:b] += 1` on a rational array, slice semantics included. -/
def sliceIncr (l : List ℚ) (a b : Int) : List ℚ :=
  incrSeg l (pyNorm a l.length) (pyNorm b l.length)

/-- Python's lexicographic comparison of two-element lists, specialized to
borders; `list.sort()` sorts by this order. -/
def lexLe (x y : Border) : Bool :=
  x.1 < y.1 || (x.1 = y.1 && x.2 ≤ y.2)

/-- Boolean `≤` on `ℤ`, used for `np.unique`'s ascending order. -/
def intLe (a b : Int) : Bool := a ≤ b

/-- `np.unique`: the sorted list of distinct values. -/
def pyUnique (l : List Int) : List Int :=
  (List.mergeSort l intLe).dedup

/-- Modelled from the spec: the external interval matcher
`intersected(a_begin, a_end, b_begin, b_end, threshold)` from `utils.matching`
(the module is not included under `src/`).  Per the spec it computes a
normalized overlap score between the two half-open intervals — the length of
their intersection relative to the shorter interval — and returns whether it
meets the threshold. -/
def intersected (b1 e1 b2 e2 : Int) (threshold : ℚ) : Bool :=
  ((min e1 e2 - max b1 b2 : Int) : ℚ) ≥ threshold * ((min (e1 - b1) (e2 - b2) : Int) : ℚ)

/-- `border_intersection(border, avg_border)`: the 0.6-threshold overlap test. -/
def border_intersection (border avg_border : Border) : Bool :=
  intersected border.1 border.2 avg_border.1 avg_border.2 (6/10)

/-! ## `border2average_correction`

The mapping matrix is a `List (List Nat)` of zeros and ones
(rows = sample borders, columns = consensus borders). -/

/-- Entry `(r, c)` of the matrix, 0 outside its extent. -/
def getM (M : List (List Nat)) (r c : Nat) : Nat :=
  (M.getD r []).getD c 0

/-- Overwrite entry `(r, c)` of the matrix (no-op outside its extent). -/
def setM (M : List (List Nat)) (r c : Nat) (v : Nat) : List (List Nat) :=
  M.set r ((M.getD r []).set c v)

/-- The `n × n` identity matrix (`np.eye`). -/
def eyeM (n : Nat) : List (List Nat) :=
  (List.range n).map (fun i => (List.range n).map (fun j => if i = j then 1 else 0))

/-- The intersection matrix of `border2average_correction`: the identity
matrix when the two lists have the same length, otherwise the boolean
matrix of pairwise overlap tests. -/
def buildMatrix (matchF : Border → Border → Bool) (borders averaged_borders : List Border) :
    List (List Nat) :=
  if borders.length = averaged_borders.length then
    eyeM borders.length
  else
    borders.map (fun b => averaged_borders.map (fun a => if matchF b a then 1 else 0))

/-- `np.where(line == 1)[0]`: the columns of a row holding a 1, ascending. -/
def matchedCols (line : List Nat) : List Nat :=
  (List.range line.length).filter (fun j => line.getD j 0 = 1)

/-- One row's part of the 'many-to-many' resolution pass: for each matched
column `j` except the last, conditionally zero the entries `(j+1, j)` and
`(j, j+1)` of the current matrix. -/
def resolveRow (nRows : Nat) (M : List (List Nat)) (js : List Nat) : List (List Nat) :=
  js.foldl (fun M j =>
    let M := if j + 1 < nRows ∧ getM M (j+1) j = 1 then setM M (j+1) j 0 else M
    if j + 1 < nRows ∧ getM M (j+1) (j+1) = 1 then setM M j (j+1) 0 else M) M

/-- One row's visit of the resolution pass: rows summing to at most 1 are
skipped. -/
def resolveStep (nRows : Nat) (M : List (List Nat)) (i : Nat) : List (List Nat) :=
  if 1 < (M.getD i []).sum then
    resolveRow nRows M (matchedCols (M.getD i [])).dropLast
  else M

/-- The 'many-to-many' resolution pass over all rows, in order, reading the
matrix as mutated so far. -/
def resolveMatrix (M0 : List (List Nat)) : List (List Nat) :=
  (List.range M0.length).foldl (resolveStep M0.length) M0

/-- The borders emitted for one row whose sum exceeds 1 ('missing
separation'): position 0 merges leftward extents, interior positions copy the
consensus border, the last position is built from the two interval ends. -/
def rowEmit (b : Border) (averaged_borders : List Border) (js : List Nat) : List Border :=
  let total := js.length
  (List.range total).map (fun k =>
    let j := js.getD k 0
    let a := averaged_borders.getD j (0, 0)
    if k = 0 then (min b.1 a.1, a.2)
    else if k + 1 < total then a
    else (max b.2 a.2, b.2))

/-- The row pass: emitted borders from all rows summing to more than 1,
in row order. -/
def rowEmissions (M : List (List Nat)) (borders averaged_borders : List Border) : List Border :=
  (M.zip borders).flatMap (fun p =>
    if 1 < p.1.sum then rowEmit p.2 averaged_borders (matchedCols p.1) else [])

/-- The `added` flags after the row pass: a row is marked when its sum is
greater than 1 (emitted merged) or zero (extra peak, dropped). -/
def addedFlags (M : List (List Nat)) : List Bool :=
  M.map (fun line => line.sum ≠ 1)

/-- Column `j` of the matrix. -/
def colOf (M : List (List Nat)) (j : Nat) : List Nat :=
  M.map (fun line => line.getD j 0)

/-- The fold inside a column whose sum exceeds 1 ('redundant separation'):
accumulate the union of the matched sample borders, assert that no matched
row was already consumed, and mark the rows. Returns `none` when the
assertion `'"many-to-many" case here must be impossible!'` fires. -/
def colUnion (borders : List Border) :
    List Nat → (Option Border × List Bool) → Option (Option Border × List Bool)
  | [], st => some st
  | i :: is, (acc, added) =>
      let b := borders.getD i (0, 0)
      let acc' := match acc with
        | none => b
        | some (lo, hi) => (min lo b.1, max hi b.2)
      if added.getD i false then none
      else colUnion borders is (some acc', added.set i true)

/-- One column's step of the column pass. -/
def colStep (borders averaged_borders : List Border) (M : List (List Nat)) :
    (List Border × List Bool) → Nat → Option (List Border × List Bool) :=
  fun st j =>
    let (acc, added) := st
    let col := colOf M j
    if 1 < col.sum then
      let is := (List.range col.length).filter (fun i => col.getD i 0 = 1)
      match colUnion borders is (none, added) with
      | none => none
      | some (none, added') => some (acc, added')
      | some (some b, added') => some (acc ++ [b], added')
    else if col.sum = 0 then
      some (acc ++ [averaged_borders.getD j (0, 0)], added)
    else
      some (acc, added)

/-- The column pass over all consensus columns, in order. -/
def colPass (borders averaged_borders : List Border) (M : List (List Nat))
    (added : List Bool) : Option (List Border × List Bool) :=
  (List.range averaged_borders.length).foldlM (colStep borders averaged_borders M) ([], added)

/-- The remaining one-to-one rows: those never marked by either pass. -/
def leftovers (borders : List Border) (added : List Bool) : List Border :=
  ((List.range borders.length).filter (fun i => ¬ added.getD i false)).map
    (fun i => borders.getD i (0, 0))

/-- `border2average_correction(borders, averaged_borders)`: correct one
sample's borders against the consensus borders.  `none` models the
`AssertionError` of the 'redundant separation' branch. -/
def border2average_correction (matchF : Border → Border → Bool)
    (borders averaged_borders : List Border) : Option (List Border) :=
  let M := resolveMatrix (buildMatrix matchF borders averaged_borders)
  let emitted1 := rowEmissions M borders averaged_borders
  let added := addedFlags M
  match colPass borders averaged_borders M added with
  | none => none
  | some (emitted2, added') =>
      some (List.mergeSort (emitted1 ++ emitted2 ++ leftovers borders added') lexLe)

/-! ## Data model: ROI, Component, borders mapping -/

/-- An ROI (read-only external entity): intensity trace, scan range,
retention-time range, mean mass. -/
structure ROI where
  i : List ℚ
  scan : Int × Int
  rt : ℚ × ℚ
  mzmean : ℚ
deriving DecidableEq

/-- Placeholder ROI used as the default of out-of-range list reads. -/
def dROI : ROI := ⟨[], (0, 0), (0, 0), 0⟩

/-- A `groupedROI` object: parallel sample names, ROIs, alignment shifts and
similarity-group labels. -/
structure Component where
  samples : List Nat
  rois : List ROI
  shifts : List Int
  grouping : List Int
deriving DecidableEq

/-- The externally owned `sample → borders` mapping, as an association list
(Python `dict` preserving insertion order). -/
abbrev BMap := List (Nat × List Border)

/-- Dictionary read with a default (`defaultdict(list)` behaviour). -/
def lookupD (m : BMap) (k : Nat) (d : List Border) : List Border :=
  (m.lookup k).getD d

/-- Dictionary write: replace the first binding of the key, or append one. -/
def setB : BMap → Nat → List Border → BMap
  | [], k, v => [(k, v)]
  | (k', v') :: rest, k, v =>
      if k' = k then (k, v) :: rest else (k', v') :: setB rest k v

/-! ## `border_correction` -/

/-- The shift-to-shared-frame loop of `border_correction`: each sample's
borders are translated by `scan_begin + shift`.  `none` models the `KeyError`
of reading a sample missing from the borders dict. -/
def shiftAll (c : Component) (borders : BMap) : Option BMap :=
  (List.range c.samples.length).foldlM (fun sb k =>
    let sample := c.samples.getD k 0
    match borders.lookup sample with
    | none => none
    | some bs =>
        let cshift := (c.rois.getD k dROI).scan.1 + c.shifts.getD k 0
        some (setB sb sample (bs.map (fun b => (b.1 + cshift, b.2 + cshift))))) []

/-- Total begin and end of one similarity group: the running `min` of both
scan ends over the group's ROIs (`min`, not `max`, matching the source).
`none` when the label has no member. -/
def totalRange (c : Component) (label : Int) : Option (Int × Int) :=
  (List.range c.samples.length).foldl (fun acc i =>
    if c.grouping.getD i 0 = label then
      match acc with
      | none => some (c.rois.getD i dROI).scan
      | some (tb, te) =>
          let r := (c.rois.getD i dROI).scan
          some (min tb r.1, min te r.2)
    else acc) none

/-- The shifted border lists of the label's member samples, in sample order
(`defaultdict` read: a missing key yields `[]`). -/
def memberLists (c : Component) (sb : BMap) (label : Int) : List (List Border) :=
  (List.range c.samples.length).filterMap (fun i =>
    if c.grouping.getD i 0 = label then some (lookupD sb (c.samples.getD i 0) [])
    else none)

/-- Occupancy voting: build a zero array over `[total_begin, total_end)`,
apply `array[b0-tb : b1-tb] += 1` for every member border (NumPy slice
semantics), divide by the number of members and threshold at 0.5. -/
def votingMask (memberBorders : List (List Border)) (tb te : Int) : List Bool :=
  let L := (te - tb).toNat
  let counts := memberBorders.foldl (fun a bs =>
    bs.foldl (fun a b => sliceIncr a (b.1 - tb) (b.2 - tb)) a) (List.replicate L (0 : ℚ))
  counts.map (fun cnt => decide (cnt / (memberBorders.length : ℚ) > 1/2))

/-- The consensus run-extraction loop of `border_correction`: the state is
the current run start (`-1` when outside a run) and the runs closed so far;
position `n` holds the pair `(mask[n], mask[n+1])`. -/
def consensusScanM (tb : Int) : List Bool → Nat → Int → List Border → Int × List Border
  | d0 :: d1 :: rest, n, b, acc =>
      if d1 ∧ ¬ d0 then consensusScanM tb (d1 :: rest) (n+1) ((n : Int) + 1) acc
      else if ¬ d1 ∧ b ≠ -1 then
        consensusScanM tb (d1 :: rest) (n+1) (-1) (acc ++ [(b + tb, (n : Int) + 2 + tb)])
      else consensusScanM tb (d1 :: rest) (n+1) b acc
  | _, _, b, acc => (b, acc)

/-- Consensus borders from the voting mask: run extraction plus the explicit
closing of a run still open at the final position, at offset `len(mask)+1`. -/
def consensusRuns (mask : List Bool) (tb : Int) : List Border :=
  let b0 : Int := if mask.headD false then 0 else -1
  let r := consensusScanM tb mask 0 b0 []
  if r.1 ≠ -1 then r.2 ++ [(r.1 + tb, (mask.length : Int) + 1 + tb)] else r.2

/-- One member's step of the per-label correction loop: a member's shifted
borders are replaced by `border2average_correction` against the consensus
borders; other samples are left alone. -/
def correctStep (c : Component) (label : Int) (avg : List Border) (sb : BMap) (i : Nat) :
    Option BMap :=
  if c.grouping.getD i 0 = label then
    match border2average_correction border_intersection
        (lookupD sb (c.samples.getD i 0) []) avg with
    | none => none
    | some v => some (setB sb (c.samples.getD i 0) v)
  else some sb

/-- The per-member correction loop of one label pass. -/
def correctLabel (c : Component) (label : Int) (avg : List Border) (sb : BMap) :
    Option BMap :=
  (List.range c.samples.length).foldlM (correctStep c label avg) sb

/-- Reverse shift with clamping into `[0, len(roi.i)]`. -/
def unshiftClamp (cshift : Int) (len : Nat) (b : Border) : Border :=
  (max (b.1 - cshift) 0, min (b.2 - cshift) (len : Int))

/-- One sample's write of the write-back loop: its entry of the borders
dict is overwritten by its reverse-shifted, clamped current borders. -/
def writeStep (c : Component) (sb : BMap) (bor : BMap) (k : Nat) : BMap :=
  setB bor (c.samples.getD k 0)
    ((lookupD sb (c.samples.getD k 0) []).map
      (unshiftClamp ((c.rois.getD k dROI).scan.1 + c.shifts.getD k 0)
        (c.rois.getD k dROI).i.length))

/-- The write-back loop run after each label pass: every sample's entry of
the borders dict is overwritten from its current shifted borders. -/
def writeAll (c : Component) (sb : BMap) (borders : BMap) : BMap :=
  (List.range c.samples.length).foldl (writeStep c sb) borders

/-- One similarity-group label pass of `border_correction`.  `none` models
the exceptions raised on a memberless label, an empty voting window, or the
assertion inside `border2average_correction`. -/
def processLabel (c : Component) (st : BMap × BMap) (label : Int) :
    Option (BMap × BMap) :=
  match totalRange c label with
  | none => none
  | some (tb, te) =>
      let mask := votingMask (memberLists c st.1 label) tb te
      if mask.isEmpty then none
      else
        match correctLabel c label (consensusRuns mask tb) st.1 with
        | none => none
        | some sb' => some (sb', writeAll c sb' st.2)

/-- `border_correction(component, borders)`: the in-place correction of the
borders mapping, returned as the new mapping. -/
def border_correction (c : Component) (borders : BMap) : Option BMap :=
  match shiftAll c borders with
  | none => none
  | some sb0 =>
      match (pyUnique c.grouping).foldlM (processLabel c) (sb0, borders) with
      | none => none
      | some r => some r.2

/-! ## `border_prediction` (PeakSegmenter)

The network-derived inputs — the boolean domain mask and the splitter
probability array — are taken as inputs, matching the spec's produced
interface `segment(domain_mask, splitter_probs, roi_length,
peak_minimum_points)`. -/

/-- The run-scanning loop of `border_prediction`: state is the run start
(`-1` outside a run), the running width, and the two border lists (signal
space and original-scan space).  A closed run is kept only when its width,
scaled back to original-scan units, exceeds `peak_minimum_points`. -/
def segScanM (points L : Nat) (pmp : ℚ) :
    List Bool → Nat → Int → Nat → List Border → List Border → List Border × List Border
  | d0 :: d1 :: rest, n, b, pw, bsig, broi =>
      if d1 ∧ ¬ d0 then
        segScanM points L pmp (d1 :: rest) (n+1) ((n : Int) + 1) 1 bsig broi
      else if d1 ∧ b ≠ -1 then
        segScanM points L pmp (d1 :: rest) (n+1) b (pw+1) bsig broi
      else if ¬ d1 ∧ b ≠ -1 then
        let keep := (pw : ℚ) / (points : ℚ) * (L : ℚ) > pmp
        let bsig' := if keep then bsig ++ [(b, (n : Int) + 2)] else bsig
        let broi' :=
          if keep then
            broi ++ [(max ((b + 1) * (L : Int) / (points : Int) - 1) 0,
                      ((n : Int) + 2) * (L : Int) / (points : Int) - 1 + 1)]
          else broi
        segScanM points L pmp (d1 :: rest) (n+1) (-1) 0 bsig' broi'
      else segScanM points L pmp (d1 :: rest) (n+1) b pw bsig broi
  | _, _, _, _, bsig, broi => (bsig, broi)

/-- The candidate borders of per-sample segmentation, before the
splitter-gap merge pass: signal-space and original-scan-space lists. -/
def segmentRuns (domain : List Bool) (points L : Nat) (pmp : ℚ) :
    List Border × List Border :=
  segScanM points L pmp domain 0 (if domain.headD false then 0 else -1)
    (if domain.headD false then 1 else 0) [] []

/-- The splitter-gap merge pass: while two adjacent candidates have no
splitter probability above `split_threshold` between them, delete the one
whose summed intensity is smaller; the intensity of candidate `k` is summed
over `roi.i[borders_roi[k][0] : borders_signal[k][1]]`, exactly as in the
source (the lower slice end in original-scan space, the upper in resampled
signal space). -/
def mergePass (roiI splitter : List ℚ) (split_threshold : ℚ)
    (bsig broi : List Border) (n : Nat) : List Border :=
  if h : n + 1 < bsig.length then
    let cur := bsig.getD n (0, 0)
    let nxt := bsig.getD (n+1) (0, 0)
    if (pySlice splitter cur.2 nxt.1).any (fun x => decide (x > split_threshold)) then
      mergePass roiI splitter split_threshold bsig broi (n+1)
    else
      let intensity1 := (pySlice roiI (broi.getD n (0, 0)).1 cur.2).sum
      let intensity2 := (pySlice roiI (broi.getD (n+1) (0, 0)).1 nxt.2).sum
      let smallest := if intensity1 < intensity2 then n else n + 1
      mergePass roiI splitter split_threshold (bsig.eraseIdx smallest) (broi.eraseIdx smallest) n
  else broi
termination_by bsig.length - n
decreasing_by
  · omega
  · split <;> rw [List.length_eraseIdx] <;> split <;> omega

/-- `border_prediction`, from the domain mask and splitter array down:
run-scanning, width filtering, then the merge pass; returns the borders in
original scan space.  `none` models the `IndexError` on an empty mask. -/
def border_prediction (roiI : List ℚ) (domain : List Bool) (splitter : List ℚ)
    (points : Nat) (peak_minimum_points split_threshold : ℚ) : Option (List Border) :=
  if domain.isEmpty then none
  else
    let r := segmentRuns domain points roiI.length peak_minimum_points
    some (mergePass roiI splitter split_threshold r.1 r.2 0)

/-! ## `Feature` and `build_features` -/

/-- A cross-sample Feature record.  The scalar fields start as Python `None`,
hence `Option ℚ`; `similarity_group` is `none` for collapsed features. -/
structure Feature where
  samples : List Nat
  rois : List ROI
  borders : List Border
  shifts : List Int
  intensities : List ℚ
  mz : Option ℚ
  rtmin : Option ℚ
  rtmax : Option ℚ
  mzrtgroup : Int
  similarity_group : Option Int
deriving DecidableEq

/-- `Feature(samples=[], ..., mz=None, ..., mzrtgroup=code, similarity_group=None)`. -/
def emptyFeature (code : Int) : Feature :=
  ⟨[], [], [], [], [], none, none, none, code, none⟩

/-- `Feature.extend`: merge another feature in, updating the running-mean
`mz` and the retention-time extrema. -/
def Feature.extend (self other : Feature) : Feature :=
  let scalars : Option ℚ × Option ℚ × Option ℚ :=
    if self.samples ≠ [] then
      (some ((self.mz.getD 0 * (self.samples.length : ℚ)
              + other.mz.getD 0 * (other.samples.length : ℚ))
             / ((self.samples.length : ℚ) + (other.samples.length : ℚ))),
       some (min (self.rtmin.getD 0) (other.rtmin.getD 0)),
       some (max (self.rtmax.getD 0) (other.rtmax.getD 0)))
    else (other.mz, other.rtmin, other.rtmax)
  { self with
    mz := scalars.1, rtmin := scalars.2.1, rtmax := scalars.2.2,
    samples := self.samples ++ other.samples,
    rois := self.rois ++ other.rois,
    borders := self.borders ++ other.borders,
    shifts := self.shifts ++ other.shifts,
    intensities := self.intensities ++ other.intensities }

/-- `frequency = (scan_end - scan_begin) / (rt_end - rt_begin)` of the
component's first ROI. -/
def frequencyOf (c : Component) : ℚ :=
  let r := c.rois.getD 0 dROI
  ((r.scan.2 - r.scan.1 : Int) : ℚ) / (r.rt.2 - r.rt.1)

/-- The `peak_number` loop of `build_features`: the border count of the
label's member samples (the value of the last member wins).  The outer
`none` models the `KeyError` of a missing dict entry; the inner `none` stays
when the label has no member (Python would then pass `None` to `range`). -/
def peakNumber (c : Component) (bmap : BMap) (label : Int) : Option (Option Nat) :=
  (List.range c.samples.length).foldlM (fun acc i =>
    if c.grouping.getD i 0 = label then
      match bmap.lookup (c.samples.getD i 0) with
      | none => none
      | some bs => some (some bs.length)
    else some acc) none

/-- The accumulator of the per-peak member loop of `build_features`. -/
structure BuildState where
  intensities : List ℚ
  samples : List Nat
  rois : List ROI
  feature_borders : List Border
  shifts : List Int
  mz : Option ℚ
  rtmin : Option ℚ
  rtmax : Option ℚ
deriving DecidableEq

/-- One member's step of the per-peak loop: assert the member's border count
equals `peak_number` (else `none`), accumulate the summed intensity and the
parallel lists, and update `mz` with the source's `i`-weighted running mean
together with the `(rtmin, rtmax)` extrema. -/
def buildStep (c : Component) (bmap : BMap) (freq : ℚ) (label : Int) (pn p : Nat)
    (st : BuildState) (i : Nat) : Option BuildState :=
  if c.grouping.getD i 0 = label then
    match bmap.lookup (c.samples.getD i 0) with
    | none => none
    | some bs =>
        if bs.length ≠ pn then none
        else
          let b := bs.getD p (0, 0)
          let roi := c.rois.getD i dROI
          let intensity := (pySlice roi.i b.1 b.2).sum
          let scalars : Option ℚ × Option ℚ × Option ℚ :=
            match st.mz with
            | none =>
                (some roi.mzmean,
                 some (roi.rt.1 + (b.1 : ℚ) / freq),
                 some (roi.rt.1 + (b.2 : ℚ) / freq))
            | some mz =>
                (some ((mz * (i : ℚ) + roi.mzmean) / ((i : ℚ) + 1)),
                 some (min (st.rtmin.getD 0) (roi.rt.1 + (b.1 : ℚ) / freq)),
                 some (max (st.rtmax.getD 0) (roi.rt.1 + (b.2 : ℚ) / freq)))
          some { intensities := st.intensities ++ [intensity],
                 samples := st.samples ++ [c.samples.getD i 0],
                 rois := st.rois ++ [roi],
                 feature_borders := st.feature_borders ++ [b],
                 shifts := st.shifts ++ [c.shifts.getD i 0],
                 mz := scalars.1, rtmin := scalars.2.1, rtmax := scalars.2.2 }
  else some st

/-- The empty accumulator at the start of each peak index `p`. -/
def emptyBuildState : BuildState := ⟨[], [], [], [], [], none, none, none⟩

/-- All Features of one similarity-group label: one per peak index in
`[0, peak_number)`. -/
def buildLabel (c : Component) (bmap : BMap) (freq : ℚ) (initial_group : Int)
    (label : Int) : Option (List Feature) :=
  match peakNumber c bmap label with
  | none => none
  | some none => none
  | some (some pn) =>
      (List.range pn).foldlM (fun feats p =>
        match (List.range c.samples.length).foldlM (buildStep c bmap freq label pn p)
            emptyBuildState with
        | none => none
        | some st =>
            some (feats ++ [{ samples := st.samples, rois := st.rois,
                              borders := st.feature_borders, shifts := st.shifts,
                              intensities := st.intensities, mz := st.mz,
                              rtmin := st.rtmin, rtmax := st.rtmax,
                              mzrtgroup := initial_group,
                              similarity_group := some label : Feature }])) []

/-- `build_features(component, borders, initial_group)`. -/
def build_features (c : Component) (bmap : BMap) (initial_group : Int) :
    Option (List Feature) :=
  let freq := frequencyOf c
  (pyUnique c.grouping).foldlM (fun feats label =>
    match buildLabel c bmap freq initial_group label with
    | none => none
    | some fs => some (feats ++ fs)) []

/-! ## `collapse_mzrtgroup` (FeatureCollapser)

The external cross-correlation pipeline (`np.convolve` of the reversed base
peak followed by `conv2correlation`, then `np.max`) lives in `utils.matching`
which is not under `src/`; it enters the embedding as the function parameter
`maxCorr`, giving the maximal correlation coefficient of two base peaks. -/

/-- `np.argmax`/`np.max` accumulator: first index of the maximum and the
maximum, scanning left to right with a strict `>` update. -/
def argmaxAux : Nat → Nat → ℚ → List ℚ → Nat × ℚ
  | _, bi, bv, [] => (bi, bv)
  | i, bi, bv, x :: xs =>
      if x > bv then argmaxAux (i+1) i x xs else argmaxAux (i+1) bi bv xs

/-- `np.argmax` (0 on the empty list, which NumPy rejects). -/
def npArgmax (l : List ℚ) : Nat :=
  match l with
  | [] => 0
  | x :: xs => (argmaxAux 1 0 x xs).1

/-- `np.max` (0 on the empty list, which NumPy rejects). -/
def npMax (l : List ℚ) : ℚ :=
  match l with
  | [] => 0
  | x :: xs => (argmaxAux 1 0 x xs).2

/-- The correlation coefficients of one subsequent label's candidates:
an already-used candidate scores 0, otherwise the maximal cross-correlation
of the base peaks. -/
def correlationTo (maxCorr : List ℚ → List ℚ → ℚ) (idx2basepeak : Nat → List ℚ)
    (used : List Nat) (base_peak : List ℚ) (jdxs : List Nat) : List ℚ :=
  jdxs.map (fun jdx => if jdx ∈ used then 0 else maxCorr base_peak (idx2basepeak jdx))

/-- The acceptance step of `collapse_mzrtgroup` for one subsequent label:
the first candidate attaining the maximal coefficient is selected iff that
maximum strictly exceeds 0.8. -/
def selectMatch (maxCorr : List ℚ → List ℚ → ℚ) (idx2basepeak : Nat → List ℚ)
    (used : List Nat) (base_peak : List ℚ) (jdxs : List Nat) : Option Nat :=
  let coeffs := correlationTo maxCorr idx2basepeak used base_peak jdxs
  if npMax coeffs > 8/10 then some (jdxs.getD (npArgmax coeffs) 0) else none

/-- `defaultdict(list)` keyed by similarity-group label, in insertion order. -/
def addIdx : List (Option Int × List Nat) → Option Int → Nat → List (Option Int × List Nat)
  | [], k, idx => [(k, [idx])]
  | (k', v) :: rest, k, idx =>
      if k' = k then (k', v ++ [idx]) :: rest else (k', v) :: addIdx rest k idx

/-- `label2idx`: feature indices grouped by `similarity_group`. -/
def label2idxOf (g : List Feature) : List (Option Int × List Nat) :=
  g.enum.foldl (fun m p => addIdx m p.2.similarity_group p.1) []

/-- The most intense sub-peak of a feature, cut from its ROI's trace:
the feature's base-peak fingerprint. -/
def basePeakOf (f : Feature) : List ℚ :=
  let n := npArgmax f.intensities
  let b := f.borders.getD n (0, 0)
  pySlice ((f.rois.getD n dROI).i) b.1 b.2

/-- `collapse_mzrtgroup(mzrtgroup, code)`: greedy cross-label matching of
features by base-peak correlation, merging accepted matches with
`Feature.extend`.  (The source materializes the label list through a Python
`set`, whose iteration order is unspecified; the embedding keeps the
insertion order of `label2idx`.) -/
def collapse_mzrtgroup (maxCorr : List ℚ → List ℚ → ℚ) (g : List Feature)
    (code : Int) : List Feature :=
  let l2i := label2idxOf g
  let unique_labels := l2i.map (fun p => p.1)
  let i2b : Nat → List ℚ := fun idx => basePeakOf (g.getD idx (emptyFeature code))
  let lookupL : Option Int → List Nat := fun lab => (l2i.lookup lab).getD []
  (unique_labels.enum.foldl (fun (st : List Nat × List Feature) q =>
    (lookupL q.2).foldl (fun (st : List Nat × List Feature) idx =>
      if idx ∈ st.1 then st
      else
        let base_peak := i2b idx
        let compose0 : List (Option Nat) :=
          (List.replicate unique_labels.length (none : Option Nat)).set q.1 (some idx)
        let compose := (unique_labels.drop (q.1 + 1)).enum.foldl (fun comp q2 =>
          match selectMatch maxCorr i2b st.1 base_peak (lookupL q2.2) with
          | some jdx => comp.set (q2.1 + q.1 + 1) (some jdx)
          | none => comp) compose0
        let r := compose.foldl (fun (p : Feature × List Nat) jdx? =>
          match jdx? with
          | none => p
          | some jdx => (p.1.extend (g.getD jdx (emptyFeature code)), p.2 ++ [jdx]))
          (emptyFeature code, st.1)
        (r.2, st.2 ++ [r.1])) st) ([], [])).2

/-! ## Concrete instances used by the per-claim results -/

/-- Component for the `border_correction` counterexample: three samples in
one similarity group, identical ROIs of 12 scans, no shifts. -/
def compOverlap : Component :=
  ⟨[0, 1, 2],
   [⟨List.replicate 12 0, (0, 12), (0, 1), 0⟩,
    ⟨List.replicate 12 0, (0, 12), (0, 1), 0⟩,
    ⟨List.replicate 12 0, (0, 12), (0, 1), 0⟩],
   [0, 0, 0], [0, 0, 0]⟩

/-- Borders mapping for the `border_correction` counterexample. -/
def bmapOverlap : BMap := [(0, [(0, 6)]), (1, [(0, 4), (5, 12)]), (2, [(0, 4), (5, 12)])]

/-- Component for the `build_features` running-mean instance: the samples at
positions 0 and 2 share label 0 (mzmeans 10 and 16), position 1 is label 1. -/
def compMz : Component :=
  ⟨[0, 1, 2],
   [⟨List.replicate 4 1, (0, 4), (0, 1), 10⟩,
    ⟨List.replicate 4 1, (0, 4), (0, 1), 99⟩,
    ⟨List.replicate 4 1, (0, 4), (0, 1), 16⟩],
   [0, 0, 0], [0, 1, 0]⟩

/-- Borders mapping for the running-mean instance: one peak everywhere. -/
def bmapMz : BMap := [(0, [(0, 1)]), (1, [(0, 1)]), (2, [(0, 1)])]

/-- Component for the `build_features` peak-count instance: both samples
carry label 5. -/
def compPk : Component :=
  ⟨[0, 1],
   [⟨List.replicate 4 1, (0, 4), (0, 1), 10⟩,
    ⟨List.replicate 4 1, (0, 4), (0, 1), 11⟩],
   [0, 0], [5, 5]⟩

/-- Borders mapping for the peak-count instance: two peaks for sample 0,
none for sample 1 (the last member of the label). -/
def bmapPk : BMap := [(0, [(0, 1), (1, 2)]), (1, [])]

/-- Single-sample component used to exercise `border_correction` on a
well-formed input. -/
def compOne : Component := ⟨[0], [⟨List.replicate 4 0, (0, 4), (0, 1), 0⟩], [0], [0]⟩

/-!
# Helper lemmas
-/

theorem getD_map_range {α : Type} (n i : Nat) (f : Nat → α) (d : α) (h : i < n) :
    ((List.range n).map f).getD i d = f i := by
  rw [List.getD_eq_getElem?_getD, List.getElem?_map, List.getElem?_range h]
  rfl

theorem getD_map_of_lt {α β : Type} (f : α → β) (l : List α) (i : Nat) (d : β) (d' : α)
    (h : i < l.length) : (l.map f).getD i d = f (l.getD i d') := by
  rw [List.getD_eq_getElem?_getD, List.getElem?_map, List.getElem?_eq_getElem h]
  simp [List.getD_eq_getElem?_getD, List.getElem?_eq_getElem h]

theorem map_getD_range {α : Type} (l : List α) (d : α) :
    (List.range l.length).map (fun i => l.getD i d) = l := by
  apply List.ext_getElem
  · simp
  · intro n h1 h2
    simp only [List.getElem_map, List.getElem_range]
    rw [List.getD_eq_getElem?_getD, List.getElem?_eq_getElem h2]
    rfl

theorem sum_indicator_range (n t : Nat) (h : t < n) :
    ((List.range n).map (fun k => if k = t then (1 : Nat) else 0)).sum = 1 := by
  induction n with
  | zero => omega
  | succ n ih =>
    rw [List.range_succ, List.map_append, List.sum_append]
    rcases Nat.lt_or_ge t n with h' | h'
    · rw [ih h']
      have : n ≠ t := by omega
      simp [this]
    · have ht : t = n := by omega
      subst ht
      have h0 : ((List.range t).map (fun k => if k = t then (1 : Nat) else 0)).sum = 0 := by
        apply List.sum_eq_zero
        intro x hx
        rcases List.mem_map.mp hx with ⟨k, hk, rfl⟩
        have : k < t := List.mem_range.mp hk
        simp [Nat.ne_of_lt this]
      rw [h0]
      simp

theorem sum_indicator_range' (n t : Nat) (h : t < n) :
    ((List.range n).map (fun k => if t = k then (1 : Nat) else 0)).sum = 1 := by
  have he : (fun k => if t = k then (1 : Nat) else 0) = (fun k => if k = t then 1 else 0) := by
    funext k
    by_cases hk : k = t
    · subst hk
      simp
    · rw [if_neg (fun hh => hk hh.symm), if_neg hk]
  rw [he]
  exact sum_indicator_range n t h

theorem eyeM_length (n : Nat) : (eyeM n).length = n := by
  simp [eyeM]

theorem eyeM_getD (n i : Nat) (h : i < n) :
    (eyeM n).getD i [] = (List.range n).map (fun j => if i = j then 1 else 0) :=
  getD_map_range n i _ [] h

theorem eyeM_row_sum (n i : Nat) (h : i < n) : ((eyeM n).getD i []).sum = 1 := by
  rw [eyeM_getD n i h]
  exact sum_indicator_range' n i h

theorem eyeM_mem_sum (n : Nat) (row : List Nat) (h : row ∈ eyeM n) : row.sum = 1 := by
  rcases List.mem_map.mp h with ⟨i, hi, rfl⟩
  exact sum_indicator_range' n i (List.mem_range.mp hi)

theorem eyeM_row_sum_le (n i : Nat) : ((eyeM n).getD i []).sum ≤ 1 := by
  rcases Nat.lt_or_ge i n with h | h
  · rw [eyeM_row_sum n i h]
  · rw [List.getD_eq_getElem?_getD]
    rw [List.getElem?_eq_none (by rw [eyeM_length]; exact h)]
    simp [Option.getD]

theorem foldl_resolveStep_id (nR : Nat) (l : List Nat) (M : List (List Nat))
    (h : ∀ i, (M.getD i []).sum ≤ 1) :
    l.foldl (resolveStep nR) M = M := by
  induction l with
  | nil => rfl
  | cons a l ih =>
    rw [List.foldl_cons]
    have hstep : resolveStep nR M a = M := by
      unfold resolveStep
      rw [if_neg (by have := h a; omega)]
    rw [hstep]
    exact ih

theorem resolveMatrix_eyeM (n : Nat) : resolveMatrix (eyeM n) = eyeM n := by
  unfold resolveMatrix
  exact foldl_resolveStep_id _ _ _ (eyeM_row_sum_le n)

theorem rowEmissions_eyeM (n : Nat) (borders avg : List Border) :
    rowEmissions (eyeM n) borders avg = [] := by
  unfold rowEmissions
  rw [List.flatMap_eq_nil_iff]
  intro p hp
  rcases p with ⟨row, b⟩
  have h1 : row ∈ eyeM n := (List.of_mem_zip hp).1
  have h2 : row.sum = 1 := eyeM_mem_sum n row h1
  simp only []
  rw [if_neg (by omega)]

theorem colOf_eyeM_sum (n j : Nat) (h : j < n) : (colOf (eyeM n) j).sum = 1 := by
  unfold colOf
  have heq : (eyeM n).map (fun line => line.getD j 0)
      = (List.range n).map (fun i => if i = j then 1 else 0) := by
    unfold eyeM
    rw [List.map_map]
    apply List.map_congr_left
    intro i hi
    simp only [Function.comp]
    exact getD_map_range n j _ 0 h
  rw [heq]
  exact sum_indicator_range n j h

theorem foldlM_colStep_ones (borders avg : List Border) (M : List (List Nat))
    (l : List Nat) (st : List Border × List Bool)
    (h : ∀ j ∈ l, (colOf M j).sum = 1) :
    l.foldlM (colStep borders avg M) st = some st := by
  induction l generalizing st with
  | nil => rfl
  | cons a l ih =>
    rw [List.foldlM_cons]
    have ha : (colOf M a).sum = 1 := h a (by simp)
    have hstep : colStep borders avg M st a = some st := by
      rcases st with ⟨acc, added⟩
      unfold colStep
      simp only []
      rw [if_neg (by omega), if_neg (by omega)]
    rw [hstep]
    simp only [Option.pure_def, Option.bind_eq_bind, Option.some_bind]
    exact ih st (fun j hj => h j (List.mem_cons_of_mem a hj))

theorem addedFlags_eyeM_getD (n i : Nat) (h : i < n) :
    (addedFlags (eyeM n)).getD i false = false := by
  unfold addedFlags
  rw [getD_map_of_lt _ _ i false [] (by rw [eyeM_length]; exact h)]
  rw [eyeM_row_sum n i h]
  simp

theorem leftovers_eyeM (n : Nat) (borders : List Border) (hn : borders.length = n) :
    leftovers borders (addedFlags (eyeM n)) = borders := by
  unfold leftovers
  have hf : (List.range borders.length).filter
      (fun i => ¬ (addedFlags (eyeM n)).getD i false) = List.range borders.length := by
    rw [List.filter_eq_self]
    intro a ha
    have haa : a < n := by rw [← hn]; exact List.mem_range.mp ha
    simp only [addedFlags_eyeM_getD n a haa]
    simp
  rw [hf]
  exact map_getD_range borders (0, 0)

theorem consensusScanM_ne (tb : Int) :
    ∀ (l : List Bool) (n : Nat) (b : Int) (acc : List Border),
      l ≠ [] → ((b ≠ -1) ↔ l.headD false = true) →
      (((consensusScanM tb l n b acc).1 ≠ -1) ↔ l.getLast? = some true) := by
  intro l
  induction l with
  | nil =>
      intro n b acc hne _
      exact absurd rfl hne
  | cons d0 rest ih =>
      intro n b acc _ hinv
      cases rest with
      | nil =>
          simp only [consensusScanM]
          simp only [List.headD] at hinv
          simp [hinv]
      | cons d1 rest' =>
          rw [List.getLast?_cons_cons]
          by_cases h1 : d1 = true ∧ ¬ d0 = true
          · simp only [consensusScanM, if_pos h1]
            apply ih (n + 1) ((n : Int) + 1) acc (by simp)
            constructor
            · intro _
              simp [h1.1]
            · intro _
              omega
          · by_cases h2 : ¬ d1 = true ∧ b ≠ -1
            · simp only [consensusScanM, if_neg h1, if_pos h2]
              apply ih (n + 1) (-1) _ (by simp)
              constructor
              · intro hc
                exact absurd rfl hc
              · intro hc
                simp only [List.headD] at hc
                exact absurd hc h2.1
            · simp only [consensusScanM, if_neg h1, if_neg h2]
              apply ih (n + 1) b acc (by simp)
              simp only [List.headD]
              cases hd1 : d1 with
              | true =>
                  have hd0 : d0 = true := by
                    by_contra hc
                    exact h1 ⟨hd1, hc⟩
                  simp only [List.headD, hd0] at hinv
                  simp [hinv]
              | false =>
                  have hb : b = -1 := by
                    by_contra hc
                    exact h2 ⟨by simp [hd1], hc⟩
                  simp [hb, hd1]

theorem segScanM_sig_bound (points L : Nat) (pmp : ℚ) :
    ∀ (l : List Bool) (n : Nat) (b : Int) (pw : Nat) (bsig broi : List Border),
      l.getLast? = some true →
      (∀ p ∈ bsig, p.2 < (n : Int) + l.length) →
      ∀ p ∈ (segScanM points L pmp l n b pw bsig broi).1, p.2 < (n : Int) + l.length := by
  intro l
  induction l with
  | nil =>
      intro n b pw bsig broi hlast _
      simp at hlast
  | cons d0 rest ih =>
      intro n b pw bsig broi hlast hacc
      cases rest with
      | nil =>
          simp only [segScanM]
          exact hacc
      | cons d1 rest' =>
          rw [List.getLast?_cons_cons] at hlast
          have hlen : ((d0 :: d1 :: rest' : List Bool).length : Int)
              = 1 + ((d1 :: rest' : List Bool).length : Int) := by
            simp
            omega
          have hgoal : ∀ p ∈ bsig, p.2 < ((n : Int) + 1) + (d1 :: rest' : List Bool).length := by
            intro p hp
            have := hacc p hp
            simp at this ⊢
            omega
          by_cases h1 : d1 = true ∧ ¬ d0 = true
          · simp only [segScanM, if_pos h1]
            intro p hp
            have := ih (n + 1) ((n : Int) + 1) 1 bsig broi hlast hgoal p hp
            simp at this ⊢
            omega
          · by_cases h2 : d1 = true ∧ b ≠ -1
            · simp only [segScanM, if_neg h1, if_pos h2]
              intro p hp
              have := ih (n + 1) b (pw + 1) bsig broi hlast hgoal p hp
              simp at this ⊢
              omega
            · by_cases h3 : ¬ d1 = true ∧ b ≠ -1
              · simp only [segScanM, if_neg h1, if_neg h2, if_pos h3]
                have hrest : rest' ≠ [] := by
                  intro hc
                  subst hc
                  simp at hlast
                  exact h3.1 hlast
                have hgoal' : ∀ p ∈ (if (pw : ℚ) / (points : ℚ) * (L : ℚ) > pmp
                      then bsig ++ [(b, (n : Int) + 2)] else bsig),
                    p.2 < ((n : Int) + 1) + (d1 :: rest' : List Bool).length := by
                  intro p hp
                  by_cases hk : (pw : ℚ) / (points : ℚ) * (L : ℚ) > pmp
                  · rw [if_pos hk] at hp
                    rcases List.mem_append.mp hp with hp' | hp'
                    · exact hgoal p hp'
                    · have hp2 : p = (b, (n : Int) + 2) := List.mem_singleton.mp hp'
                      subst hp2
                      have : rest'.length ≠ 0 := by
                        intro hc
                        exact hrest (List.length_eq_zero.mp hc)
                      simp
                      omega
                  · rw [if_neg hk] at hp
                    exact hgoal p hp
                intro p hp
                have := ih (n + 1) (-1) 0 _ _ hlast hgoal' p hp
                simp at this ⊢
                omega
              · simp only [segScanM, if_neg h1, if_neg h2, if_neg h3]
                intro p hp
                have := ih (n + 1) b pw bsig broi hlast hgoal p hp
                simp at this ⊢
                omega

theorem argmaxAux_spec (xs : List ℚ) : ∀ (i bi : Nat) (bv : ℚ),
    (((argmaxAux i bi bv xs).1 = bi ∧ (argmaxAux i bi bv xs).2 = bv)
      ∨ (∃ k, k < xs.length ∧ (argmaxAux i bi bv xs).1 = i + k
           ∧ (argmaxAux i bi bv xs).2 = xs.getD k 0))
    ∧ bv ≤ (argmaxAux i bi bv xs).2
    ∧ (∀ k, k < xs.length → xs.getD k 0 ≤ (argmaxAux i bi bv xs).2) := by
  induction xs with
  | nil =>
      intro i bi bv
      refine ⟨Or.inl ⟨rfl, rfl⟩, le_refl bv, ?_⟩
      intro k hk
      simp at hk
  | cons x xs ih =>
      intro i bi bv
      by_cases hx : x > bv
      · obtain ⟨hcase, hle, hdom⟩ := ih (i + 1) i x
        have hred : argmaxAux i bi bv (x :: xs) = argmaxAux (i + 1) i x xs := by
          simp [argmaxAux, hx]
        rw [hred]
        refine ⟨?_, ?_, ?_⟩
        · rcases hcase with ⟨h1, h2⟩ | ⟨k, hk, h1, h2⟩
          · exact Or.inr ⟨0, by simp, by omega, by simp [h2]⟩
          · exact Or.inr ⟨k + 1, by simp; omega, by omega, by simp [h2]⟩
        · exact le_trans (le_of_lt hx) hle
        · intro k hk
          cases k with
          | zero => simpa using hle
          | succ k =>
              rw [List.getD_cons_succ]
              exact hdom k (by simp at hk; omega)
      · obtain ⟨hcase, hle, hdom⟩ := ih (i + 1) bi bv
        have hred : argmaxAux i bi bv (x :: xs) = argmaxAux (i + 1) bi bv xs := by
          simp [argmaxAux, hx]
        rw [hred]
        refine ⟨?_, hle, ?_⟩
        · rcases hcase with ⟨h1, h2⟩ | ⟨k, hk, h1, h2⟩
          · exact Or.inl ⟨h1, h2⟩
          · exact Or.inr ⟨k + 1, by simp; omega, by omega, by simp [h2]⟩
        · intro k hk
          cases k with
          | zero =>
              rw [List.getD_cons_zero]
              exact le_trans (le_of_not_lt hx) hle
          | succ k =>
              rw [List.getD_cons_succ]
              exact hdom k (by simp at hk; omega)

theorem correlationTo_getD (maxCorr : List ℚ → List ℚ → ℚ) (idx2basepeak : Nat → List ℚ)
    (used : List Nat) (base_peak : List ℚ) (jdxs : List Nat) (nn : Nat)
    (h : nn < jdxs.length) :
    (correlationTo maxCorr idx2basepeak used base_peak jdxs).getD nn 0
      = (if jdxs.getD nn 0 ∈ used then 0
         else maxCorr base_peak (idx2basepeak (jdxs.getD nn 0))) :=
  getD_map_of_lt _ _ _ _ _ h

theorem npArgmax_lt (l : List ℚ) (h : l ≠ []) : npArgmax l < l.length := by
  cases l with
  | nil => exact absurd rfl h
  | cons x xs =>
      obtain ⟨hcase, _, _⟩ := argmaxAux_spec xs 1 0 x
      simp only [npArgmax]
      rcases hcase with ⟨h1, _⟩ | ⟨k, hk, h1, _⟩
      · rw [h1]
        simp
      · rw [h1]
        simp
        omega

theorem npMax_attained (l : List ℚ) (h : l ≠ []) : l.getD (npArgmax l) 0 = npMax l := by
  cases l with
  | nil => exact absurd rfl h
  | cons x xs =>
      obtain ⟨hcase, _, _⟩ := argmaxAux_spec xs 1 0 x
      simp only [npArgmax, npMax]
      rcases hcase with ⟨h1, h2⟩ | ⟨k, hk, h1, h2⟩
      · rw [h1, h2]
        simp
      · rw [h1, h2]
        have : 1 + k = k + 1 := by omega
        rw [this, List.getD_cons_succ]

theorem npMax_dominates (l : List ℚ) (m : Nat) (hm : m < l.length) :
    l.getD m 0 ≤ npMax l := by
  cases l with
  | nil => simp at hm
  | cons x xs =>
      obtain ⟨_, hle, hdom⟩ := argmaxAux_spec xs 1 0 x
      simp only [npMax]
      cases m with
      | zero =>
          rw [List.getD_cons_zero]
          exact hle
      | succ m =>
          rw [List.getD_cons_succ]
          exact hdom m (by simp at hm; omega)

/-! Lemmas on occupancy voting. -/

/-- The point-coverage test of a border at scan `tb + p`. -/
def coversAt (tb : Int) (p : Nat) (b : Border) : Bool :=
  decide (b.1 ≤ tb + (p : Int) ∧ tb + (p : Int) < b.2)

theorem incrSeg_length (a : List ℚ) : ∀ lo hi, (incrSeg a lo hi).length = a.length := by
  induction a with
  | nil => intro lo hi; rfl
  | cons x xs ih =>
      intro lo hi
      simp [incrSeg, ih]

theorem incrSeg_getD (a : List ℚ) : ∀ (lo hi p : Nat), p < a.length →
    (incrSeg a lo hi).getD p 0 = a.getD p 0 + (if lo ≤ p ∧ p < hi then 1 else 0) := by
  induction a with
  | nil =>
      intro lo hi p hp
      simp at hp
  | cons x xs ih =>
      intro lo hi p hp
      cases p with
      | zero =>
          simp only [incrSeg, List.getD_cons_zero]
          by_cases h0 : lo = 0 ∧ 0 < hi
          · rw [if_pos h0, if_pos (by omega)]
          · rw [if_neg h0, if_neg (by omega)]
            rw [add_zero]
      | succ p =>
          simp only [incrSeg, List.getD_cons_succ]
          rw [ih (lo - 1) (hi - 1) p (by simp at hp; omega)]
          by_cases hc : lo - 1 ≤ p ∧ p < hi - 1
          · rw [if_pos hc, if_pos (by omega)]
          · rw [if_neg hc, if_neg (by omega)]

theorem sliceIncr_length (a : List ℚ) (l r : Int) : (sliceIncr a l r).length = a.length :=
  incrSeg_length a _ _

theorem sliceIncr_getD_inwin (a : List ℚ) (tb : Int) (b : Border) (p : Nat)
    (hp : p < a.length) (hb1 : tb ≤ b.1) (hb2 : b.1 ≤ b.2) :
    (sliceIncr a (b.1 - tb) (b.2 - tb)).getD p 0
      = a.getD p 0 + (if coversAt tb p b then 1 else 0) := by
  unfold sliceIncr
  rw [incrSeg_getD a _ _ p hp]
  have hcond : (pyNorm (b.1 - tb) a.length ≤ p ∧ p < pyNorm (b.2 - tb) a.length)
      ↔ (coversAt tb p b = true) := by
    unfold pyNorm coversAt
    rw [if_neg (by omega), if_neg (by omega)]
    simp only [decide_eq_true_eq]
    omega
  by_cases hc : coversAt tb p b = true
  · rw [if_pos (hcond.mpr hc), if_pos hc]
  · rw [if_neg (fun hh => hc (hcond.mp hh)), if_neg hc]

theorem memberFold_length (tb : Int) (bs : List Border) :
    ∀ (a : List ℚ),
      (bs.foldl (fun a b => sliceIncr a (b.1 - tb) (b.2 - tb)) a).length = a.length := by
  induction bs with
  | nil => intro a; rfl
  | cons b bs ih =>
      intro a
      rw [List.foldl_cons, ih, sliceIncr_length]

theorem memberFold_getD (tb : Int) (bs : List Border) :
    ∀ (a : List ℚ) (p : Nat), p < a.length →
      (∀ b ∈ bs, tb ≤ b.1 ∧ b.1 ≤ b.2) →
      (bs.foldl (fun a b => sliceIncr a (b.1 - tb) (b.2 - tb)) a).getD p 0
        = a.getD p 0 + (bs.countP (coversAt tb p) : ℚ) := by
  induction bs with
  | nil =>
      intro a p hp hwf
      simp
  | cons b bs ih =>
      intro a p hp hwf
      rw [List.foldl_cons]
      rw [ih _ p (by rw [sliceIncr_length]; exact hp) (fun b' hb' => hwf b' (by simp [hb']))]
      rw [sliceIncr_getD_inwin a tb b p hp (hwf b (by simp)).1 (hwf b (by simp)).2]
      rw [List.countP_cons]
      by_cases hc : coversAt tb p b = true
      · rw [if_pos hc]
        simp only [hc, if_true]
        push_cast
        ring
      · rw [if_neg hc]
        simp only [hc]
        simp

theorem groupFold_length (tb : Int) (mb : List (List Border)) :
    ∀ (a : List ℚ),
      (mb.foldl (fun a bs => bs.foldl (fun a b => sliceIncr a (b.1 - tb) (b.2 - tb)) a) a).length
        = a.length := by
  induction mb with
  | nil => intro a; rfl
  | cons bs mb ih =>
      intro a
      rw [List.foldl_cons, ih, memberFold_length]

theorem groupFold_getD (tb : Int) (mb : List (List Border)) :
    ∀ (a : List ℚ) (p : Nat), p < a.length →
      (∀ bs ∈ mb, ∀ b ∈ bs, tb ≤ b.1 ∧ b.1 ≤ b.2) →
      (mb.foldl (fun a bs => bs.foldl (fun a b => sliceIncr a (b.1 - tb) (b.2 - tb)) a) a).getD p 0
        = a.getD p 0 + ((mb.map (fun bs => bs.countP (coversAt tb p))).sum : ℚ) := by
  induction mb with
  | nil =>
      intro a p hp hwf
      simp
  | cons bs mb ih =>
      intro a p hp hwf
      rw [List.foldl_cons]
      rw [ih _ p (by rw [memberFold_length]; exact hp)
        (fun bs' hbs' => hwf bs' (by simp [hbs']))]
      rw [memberFold_getD tb bs a p hp (hwf bs (by simp))]
      rw [List.map_cons, List.sum_cons]
      ring

theorem countP_le_one_of_disjoint (tb : Int) (p : Nat) (bs : List Border)
    (hdisj : bs.Pairwise (fun a b => a.2 ≤ b.1 ∨ b.2 ≤ a.1)) :
    bs.countP (coversAt tb p) ≤ 1 := by
  induction bs with
  | nil => simp
  | cons b bs ih =>
      rw [List.countP_cons]
      rcases List.pairwise_cons.mp hdisj with ⟨hb, htail⟩
      by_cases hc : coversAt tb p b = true
      · have h0 : bs.countP (coversAt tb p) = 0 := by
          rw [List.countP_eq_zero]
          intro b' hb'
          rcases hb b' hb' with hd | hd
          · unfold coversAt at hc ⊢
            simp only [decide_eq_true_eq] at hc ⊢
            omega
          · unfold coversAt at hc ⊢
            simp only [decide_eq_true_eq] at hc ⊢
            omega
        rw [h0]
        simp [hc]
      · rw [if_neg hc]
        simpa using ih htail

theorem countP_eq_any_of_disjoint (tb : Int) (p : Nat) (bs : List Border)
    (hdisj : bs.Pairwise (fun a b => a.2 ≤ b.1 ∨ b.2 ≤ a.1)) :
    bs.countP (coversAt tb p) = (if bs.any (coversAt tb p) then 1 else 0) := by
  by_cases ha : bs.any (coversAt tb p) = true
  · rw [if_pos ha]
    rcases List.any_eq_true.mp ha with ⟨b, hb, hcb⟩
    have h1 : 1 ≤ bs.countP (coversAt tb p) := by
      rw [Nat.succ_le_iff, List.countP_pos_iff]
      exact ⟨b, hb, hcb⟩
    have h2 := countP_le_one_of_disjoint tb p bs hdisj
    omega
  · rw [if_neg ha]
    rw [List.countP_eq_zero]
    intro b hb
    intro hcb
    exact ha (List.any_eq_true.mpr ⟨b, hb, hcb⟩)

theorem group_cover_sum (tb : Int) (p : Nat) (mb : List (List Border))
    (hdisj : ∀ bs ∈ mb, bs.Pairwise (fun a b => a.2 ≤ b.1 ∨ b.2 ≤ a.1)) :
    (mb.map (fun bs => bs.countP (coversAt tb p))).sum
      = mb.countP (fun bs => bs.any (coversAt tb p)) := by
  induction mb with
  | nil => simp
  | cons bs mb ih =>
      rw [List.map_cons, List.sum_cons, List.countP_cons,
        countP_eq_any_of_disjoint tb p bs (hdisj bs (by simp)),
        ih (fun bs' hbs' => hdisj bs' (by simp [hbs']))]
      by_cases ha : bs.any (coversAt tb p) = true
      · simp [ha]
        omega
      · simp [ha]

theorem foldlM_option_none {β α : Type} (f : β → α → Option β) (l : List α) (x : α)
    (hx : x ∈ l) (hf : ∀ acc, f acc x = none) : ∀ (init : β), l.foldlM f init = none := by
  induction l with
  | nil => cases hx
  | cons a l ih =>
      intro init
      rw [List.foldlM_cons]
      rcases List.mem_cons.mp hx with rfl | hx'
      · rw [hf init]
        rfl
      · cases hfa : f init a with
        | none => rfl
        | some b =>
            simp only [Option.pure_def, Option.bind_eq_bind, Option.some_bind]
            exact ih hx' b

/-! Lemmas on the mapping matrix of `border2average_correction`. -/

theorem getD_set_ne {α : Type} (l : List α) (i k : Nat) (x d : α) (h : i ≠ k) :
    (l.set i x).getD k d = l.getD k d := by
  rw [List.getD_eq_getElem?_getD, List.getD_eq_getElem?_getD, List.getElem?_set_ne h]

theorem getD_set_self {α : Type} (l : List α) : ∀ (i : Nat) (x d : α), i < l.length →
    (l.set i x).getD i d = x := by
  induction l with
  | nil =>
      intro i x d h
      simp at h
  | cons a as ih =>
      intro i x d h
      cases i with
      | zero => rfl
      | succ i =>
          rw [List.set_cons_succ, List.getD_cons_succ]
          exact ih i x d (by simp at h; omega)

theorem getD_set_zero_le (l : List Nat) : ∀ i k, (l.set i 0).getD k 0 ≤ l.getD k 0 := by
  induction l with
  | nil =>
      intro i k
      simp
  | cons x xs ih =>
      intro i k
      cases i with
      | zero =>
          cases k with
          | zero => simp
          | succ k => simp
      | succ i =>
          cases k with
          | zero => rw [List.set_cons_succ, List.getD_cons_zero, List.getD_cons_zero]
          | succ k =>
              rw [List.set_cons_succ, List.getD_cons_succ, List.getD_cons_succ]
              exact ih i k

theorem set_of_length_le {α : Type} (l : List α) : ∀ (i : Nat) (x : α), l.length ≤ i →
    l.set i x = l := by
  induction l with
  | nil => intro i x _; rfl
  | cons a as ih =>
      intro i x h
      cases i with
      | zero => simp at h
      | succ i =>
          rw [List.set_cons_succ, ih i x (by simp at h; omega)]

theorem set_eq_self_of_getD {α : Type} (l : List α) (i : Nat) (x d : α)
    (hi : i < l.length) (h : l.getD i d = x) : l.set i x = l := by
  have hx : l[i] = x := by
    rw [← h, List.getD_eq_getElem?_getD, List.getElem?_eq_getElem hi]
    rfl
  apply List.ext_getElem (by simp)
  intro n h1 h2
  rw [List.getElem_set]
  by_cases he : i = n
  · subst he
    simp [hx]
  · rw [if_neg he]

theorem getD_of_length_le {α : Type} (l : List α) (r : Nat) (d : α) (h : l.length ≤ r) :
    l.getD r d = d := by
  rw [List.getD_eq_getElem?_getD, List.getElem?_eq_none h]
  rfl

theorem sum_zero_getD (l : List Nat) (h : l.sum = 0) (j : Nat) : l.getD j 0 = 0 := by
  rcases Nat.lt_or_ge j l.length with hj | hj
  · rw [List.getD_eq_getElem?_getD, List.getElem?_eq_getElem hj]
    exact (List.sum_eq_zero_iff.mp h) _ (List.getElem_mem hj)
  · rw [List.getD_eq_getElem?_getD, List.getElem?_eq_none hj]
    rfl

theorem rowSum_zero_of_getM (M : List (List Nat)) (i : Nat)
    (h : ∀ c, getM M i c = 0) : ((M.getD i []).sum) = 0 := by
  apply List.sum_eq_zero
  intro x hx
  rcases List.mem_iff_getElem.mp hx with ⟨k, hk, rfl⟩
  have := h k
  unfold getM at this
  rw [List.getD_eq_getElem?_getD, List.getElem?_eq_getElem hk] at this
  exact this

theorem colSum_zero_of_getM (M : List (List Nat)) (j : Nat)
    (h : ∀ r, getM M r j = 0) : (colOf M j).sum = 0 := by
  apply List.sum_eq_zero
  intro x hx
  unfold colOf at hx
  rcases List.mem_map.mp hx with ⟨row, hrow, rfl⟩
  rcases List.mem_iff_getElem.mp hrow with ⟨r, hr, rfl⟩
  have hgm := h r
  unfold getM at hgm
  rw [List.getD_eq_getElem?_getD M r [], List.getElem?_eq_getElem hr] at hgm
  exact hgm

theorem getM_setM_zero_le (M : List (List Nat)) (r c r' c' : Nat) :
    getM (setM M r c 0) r' c' ≤ getM M r' c' := by
  unfold getM setM
  by_cases hr : r = r'
  · subst hr
    rcases Nat.lt_or_ge r M.length with hrl | hrl
    · rw [getD_set_self M r _ [] hrl]
      exact getD_set_zero_le (M.getD r []) c c'
    · rw [set_of_length_le M r _ hrl]
  · rw [getD_set_ne M r r' _ [] hr]

theorem getM_resolveRow_le (nR : Nat) (js : List Nat) :
    ∀ (M : List (List Nat)) (r c : Nat), getM (resolveRow nR M js) r c ≤ getM M r c := by
  induction js with
  | nil =>
      intro M r c
      exact le_refl _
  | cons j js ih =>
      intro M r c
      unfold resolveRow
      rw [List.foldl_cons]
      refine le_trans (ih _ r c) ?_
      by_cases h1 : j + 1 < nR ∧ getM M (j+1) j = 1
      · rw [if_pos h1]
        by_cases h2 : j + 1 < nR ∧ getM (setM M (j+1) j 0) (j+1) (j+1) = 1
        · rw [if_pos h2]
          exact le_trans (getM_setM_zero_le _ j (j+1) r c) (getM_setM_zero_le M (j+1) j r c)
        · rw [if_neg h2]
          exact getM_setM_zero_le M (j+1) j r c
      · rw [if_neg h1]
        by_cases h2 : j + 1 < nR ∧ getM M (j+1) (j+1) = 1
        · rw [if_pos h2]
          exact getM_setM_zero_le M j (j+1) r c
        · rw [if_neg h2]

theorem getM_resolveStep_le (nR : Nat) (M : List (List Nat)) (a r c : Nat) :
    getM (resolveStep nR M a) r c ≤ getM M r c := by
  unfold resolveStep
  by_cases h : 1 < (M.getD a []).sum
  · rw [if_pos h]
    exact getM_resolveRow_le nR _ M r c
  · rw [if_neg h]

theorem getM_resolveMatrix_le (M : List (List Nat)) (r c : Nat) :
    getM (resolveMatrix M) r c ≤ getM M r c := by
  unfold resolveMatrix
  generalize List.range M.length = l
  generalize hgen : M.length = nR
  clear hgen
  induction l generalizing M with
  | nil => exact le_refl _
  | cons a l ih =>
      rw [List.foldl_cons]
      exact le_trans (ih (resolveStep nR M a)) (getM_resolveStep_le nR M a r c)

theorem setM_length (M : List (List Nat)) (r c v : Nat) :
    (setM M r c v).length = M.length := List.length_set _ _ _

theorem resolveRow_length (nR : Nat) (js : List Nat) :
    ∀ (M : List (List Nat)), (resolveRow nR M js).length = M.length := by
  induction js with
  | nil => intro M; rfl
  | cons j js ih =>
      intro M
      unfold resolveRow
      rw [List.foldl_cons]
      show (resolveRow nR _ js).length = M.length
      rw [ih]
      by_cases h1 : j + 1 < nR ∧ getM M (j+1) j = 1
      · rw [if_pos h1]
        by_cases h2 : j + 1 < nR ∧ getM (setM M (j+1) j 0) (j+1) (j+1) = 1
        · rw [if_pos h2, setM_length, setM_length]
        · rw [if_neg h2, setM_length]
      · rw [if_neg h1]
        by_cases h2 : j + 1 < nR ∧ getM M (j+1) (j+1) = 1
        · rw [if_pos h2, setM_length]
        · rw [if_neg h2]

theorem resolveStep_length (nR : Nat) (M : List (List Nat)) (a : Nat) :
    (resolveStep nR M a).length = M.length := by
  unfold resolveStep
  by_cases h : 1 < (M.getD a []).sum
  · rw [if_pos h, resolveRow_length]
  · rw [if_neg h]

theorem foldl_resolveStep_length (nR : Nat) (l : List Nat) :
    ∀ (M : List (List Nat)), (l.foldl (resolveStep nR) M).length = M.length := by
  induction l with
  | nil => intro M; rfl
  | cons a l ih =>
      intro M
      rw [List.foldl_cons, ih, resolveStep_length]

theorem resolveMatrix_length (M : List (List Nat)) :
    (resolveMatrix M).length = M.length :=
  foldl_resolveStep_length M.length (List.range M.length) M

theorem buildMatrix_length (matchF : Border → Border → Bool) (borders avg : List Border) :
    (buildMatrix matchF borders avg).length = borders.length := by
  unfold buildMatrix
  by_cases h : borders.length = avg.length
  · rw [if_pos h, eyeM_length]
  · rw [if_neg h, List.length_map]

theorem buildMatrix_row_zero (matchF : Border → Border → Bool) (borders avg : List Border)
    (i : Nat) (hne : borders.length ≠ avg.length) (hi : i < borders.length)
    (h0 : ∀ a ∈ avg, matchF (borders.getD i (0, 0)) a = false) :
    ∀ c, getM (buildMatrix matchF borders avg) i c = 0 := by
  intro c
  unfold buildMatrix getM
  rw [if_neg hne]
  rw [getD_map_of_lt _ borders i [] (0, 0) hi]
  rcases Nat.lt_or_ge c avg.length with hc | hc
  · rw [getD_map_of_lt _ avg c 0 (0, 0) hc]
    rw [h0 _ (by
      rw [List.getD_eq_getElem?_getD, List.getElem?_eq_getElem hc]
      exact List.getElem_mem hc)]
    rfl
  · rw [List.getD_eq_getElem?_getD, List.getElem?_eq_none (by rw [List.length_map]; exact hc)]
    rfl

theorem buildMatrix_col_zero (matchF : Border → Border → Bool) (borders avg : List Border)
    (j : Nat) (hne : borders.length ≠ avg.length)
    (hcol : ∀ b ∈ borders, matchF b (avg.getD j (0, 0)) = false) :
    ∀ r, getM (buildMatrix matchF borders avg) r j = 0 := by
  intro r
  unfold buildMatrix getM
  rw [if_neg hne]
  rcases Nat.lt_or_ge r borders.length with hr | hr
  · rw [getD_map_of_lt _ borders r [] (0, 0) hr]
    rcases Nat.lt_or_ge j avg.length with hj | hj
    · rw [getD_map_of_lt _ avg j 0 (0, 0) hj]
      rw [hcol _ (by
        rw [List.getD_eq_getElem?_getD, List.getElem?_eq_getElem hr]
        exact List.getElem_mem hr)]
      rfl
    · rw [List.getD_eq_getElem?_getD, List.getElem?_eq_none (by rw [List.length_map]; exact hj)]
      rfl
  · rw [getD_of_length_le _ r [] (by rw [List.length_map]; exact hr)]
    rfl

theorem rowEmissions_set (M : List (List Nat)) :
    ∀ (borders avg : List Border) (i : Nat) (b' : Border),
      i < borders.length → (M.getD i []).sum = 0 →
      rowEmissions M (borders.set i b') avg = rowEmissions M borders avg := by
  induction M with
  | nil =>
      intro borders avg i b' hi hsum
      rfl
  | cons row M ih =>
      intro borders avg i b' hi hsum
      cases borders with
      | nil => simp at hi
      | cons b bs =>
          cases i with
          | zero =>
              unfold rowEmissions
              rw [List.set_cons_zero, List.zip_cons_cons, List.zip_cons_cons,
                List.flatMap_cons, List.flatMap_cons]
              have hrow : row.sum = 0 := by simpa using hsum
              have hc1 : ¬ (1 < (row, b').1.sum) := by simp [hrow]
              have hc2 : ¬ (1 < (row, b).1.sum) := by simp [hrow]
              rw [if_neg hc1, if_neg hc2]
          | succ i =>
              unfold rowEmissions
              rw [List.set_cons_succ, List.zip_cons_cons, List.zip_cons_cons,
                List.flatMap_cons, List.flatMap_cons]
              congr 1
              exact ih bs avg i b' (by simp at hi; omega) (by simpa using hsum)

theorem getD_set_true_mono (l : List Bool) (k i : Nat) (h : l.getD i false = true) :
    (l.set k true).getD i false = true := by
  by_cases hk : k = i
  · subst hk
    rcases Nat.lt_or_ge k l.length with hl | hl
    · rw [getD_set_self l k true false hl]
    · rw [set_of_length_le l k true hl]
      exact h
  · rw [getD_set_ne l k i true false hk]
    exact h

theorem colUnion_set_ne (borders : List Border) (i : Nat) (b' : Border) :
    ∀ (is : List Nat) (st : Option Border × List Bool),
      (∀ k ∈ is, k ≠ i) →
      colUnion (borders.set i b') is st = colUnion borders is st := by
  intro is
  induction is with
  | nil =>
      intro st _
      rfl
  | cons k is ih =>
      intro st hk
      rcases st with ⟨acc, added⟩
      have hik : i ≠ k := fun h => (hk k (by simp)) h.symm
      simp only [colUnion]
      rw [getD_set_ne borders i k b' (0, 0) hik]
      by_cases ha : added.getD k false = true
      · rw [if_pos ha, if_pos ha]
      · rw [if_neg ha, if_neg ha]
        exact ih _ (fun k' hk' => hk k' (by simp [hk']))

theorem colUnion_added_true (borders : List Border) (i : Nat) :
    ∀ (is : List Nat) (st r : Option Border × List Bool),
      colUnion borders is st = some r → st.2.getD i false = true →
      r.2.getD i false = true := by
  intro is
  induction is with
  | nil =>
      intro st r h ht
      cases h
      exact ht
  | cons k is ih =>
      intro st r h ht
      rcases st with ⟨acc, added⟩
      simp only [colUnion] at h
      by_cases ha : added.getD k false = true
      · rw [if_pos ha] at h
        cases h
      · rw [if_neg ha] at h
        exact ih _ r h (getD_set_true_mono added k i ht)

theorem colOf_length (M : List (List Nat)) (j : Nat) : (colOf M j).length = M.length :=
  List.length_map _ _

theorem matched_rows_ne (M : List (List Nat)) (j i : Nat) (hrow : ∀ c, getM M i c = 0) :
    ∀ k ∈ (List.range (colOf M j).length).filter (fun k => (colOf M j).getD k 0 = 1),
      k ≠ i := by
  intro k hk
  rcases List.mem_filter.mp hk with ⟨hkr, hk1⟩
  intro hik
  subst hik
  have hkl : k < M.length := by
    have := List.mem_range.mp hkr
    rw [colOf_length] at this
    exact this
  have : (colOf M j).getD k 0 = 0 := by
    unfold colOf
    rw [getD_map_of_lt _ M k 0 [] hkl]
    exact hrow j
  rw [this] at hk1
  simp at hk1

theorem colStep_set_ne (borders avg : List Border) (M : List (List Nat)) (i : Nat)
    (b' : Border) (hrow : ∀ c, getM M i c = 0) (st : List Border × List Bool) (j : Nat) :
    colStep (borders.set i b') avg M st j = colStep borders avg M st j := by
  rcases st with ⟨acc, added⟩
  simp only [colStep]
  by_cases h1 : 1 < (colOf M j).sum
  · rw [if_pos h1, if_pos h1]
    rw [colUnion_set_ne borders i b' _ (none, added) (matched_rows_ne M j i hrow)]
  · rw [if_neg h1, if_neg h1]

theorem colStep_added_true (borders avg : List Border) (M : List (List Nat)) (i : Nat)
    (st : List Border × List Bool) (j : Nat) (r : List Border × List Bool)
    (h : colStep borders avg M st j = some r) (ht : st.2.getD i false = true) :
    r.2.getD i false = true := by
  rcases st with ⟨acc, added⟩
  simp only [colStep] at h
  by_cases h1 : 1 < (colOf M j).sum
  · rw [if_pos h1] at h
    cases hcu : colUnion borders
        ((List.range (colOf M j).length).filter (fun i => (colOf M j).getD i 0 = 1))
        (none, added) with
    | none =>
        rw [hcu] at h
        cases h
    | some p =>
        rw [hcu] at h
        rcases p with ⟨ob, added'⟩
        have hadded' : added'.getD i false = true :=
          colUnion_added_true borders i _ (none, added) (ob, added') hcu ht
        cases ob with
        | none =>
            cases h
            exact hadded'
        | some bb =>
            cases h
            exact hadded'
  · rw [if_neg h1] at h
    by_cases h0 : (colOf M j).sum = 0
    · rw [if_pos h0] at h
      cases h
      exact ht
    · rw [if_neg h0] at h
      cases h
      exact ht

theorem colStep_acc_mem (borders avg : List Border) (M : List (List Nat))
    (st : List Border × List Bool) (j : Nat) (r : List Border × List Bool)
    (h : colStep borders avg M st j = some r) (x : Border) (hx : x ∈ st.1) : x ∈ r.1 := by
  rcases st with ⟨acc, added⟩
  simp only [colStep] at h
  by_cases h1 : 1 < (colOf M j).sum
  · rw [if_pos h1] at h
    cases hcu : colUnion borders
        ((List.range (colOf M j).length).filter (fun i => (colOf M j).getD i 0 = 1))
        (none, added) with
    | none =>
        rw [hcu] at h
        cases h
    | some p =>
        rw [hcu] at h
        rcases p with ⟨ob, added'⟩
        cases ob with
        | none =>
            cases h
            exact hx
        | some bb =>
            cases h
            exact List.mem_append_left _ hx
  · rw [if_neg h1] at h
    by_cases h0 : (colOf M j).sum = 0
    · rw [if_pos h0] at h
      cases h
      exact List.mem_append_left _ hx
    · rw [if_neg h0] at h
      cases h
      exact hx

theorem colStep_of_sum_zero (borders avg : List Border) (M : List (List Nat))
    (st : List Border × List Bool) (j : Nat) (h0 : (colOf M j).sum = 0) :
    colStep borders avg M st j = some (st.1 ++ [avg.getD j (0, 0)], st.2) := by
  rcases st with ⟨acc, added⟩
  simp only [colStep]
  rw [if_neg (by omega), if_pos h0]

theorem foldlM_congr {β α : Type} (f g : β → α → Option β) (l : List α)
    (h : ∀ st x, f st x = g st x) : ∀ init, l.foldlM f init = l.foldlM g init := by
  induction l with
  | nil => intro init; rfl
  | cons a l ih =>
      intro init
      rw [List.foldlM_cons, List.foldlM_cons, h init a]
      cases g init a with
      | none => rfl
      | some b =>
          simp only [Option.pure_def, Option.bind_eq_bind, Option.some_bind]
          exact ih b

theorem foldlM_colStep_added_true (borders avg : List Border) (M : List (List Nat))
    (i : Nat) : ∀ (l : List Nat) (st r : List Border × List Bool),
      l.foldlM (colStep borders avg M) st = some r →
      st.2.getD i false = true → r.2.getD i false = true := by
  intro l
  induction l with
  | nil =>
      intro st r h ht
      cases h
      exact ht
  | cons a l ih =>
      intro st r h ht
      rw [List.foldlM_cons] at h
      cases hst : colStep borders avg M st a with
      | none =>
          rw [hst] at h
          cases h
      | some st' =>
          rw [hst] at h
          simp only [Option.pure_def, Option.bind_eq_bind, Option.some_bind] at h
          exact ih st' r h (colStep_added_true borders avg M i st a st' hst ht)

theorem foldlM_colStep_mem (borders avg : List Border) (M : List (List Nat)) (x : Border) :
    ∀ (l : List Nat) (st r : List Border × List Bool),
      l.foldlM (colStep borders avg M) st = some r → x ∈ st.1 → x ∈ r.1 := by
  intro l
  induction l with
  | nil =>
      intro st r h hx
      cases h
      exact hx
  | cons a l ih =>
      intro st r h hx
      rw [List.foldlM_cons] at h
      cases hst : colStep borders avg M st a with
      | none =>
          rw [hst] at h
          cases h
      | some st' =>
          rw [hst] at h
          simp only [Option.pure_def, Option.bind_eq_bind, Option.some_bind] at h
          exact ih st' r h (colStep_acc_mem borders avg M st a st' hst x hx)

theorem foldlM_colStep_processes (borders avg : List Border) (M : List (List Nat))
    (j : Nat) (h0 : (colOf M j).sum = 0) :
    ∀ (l : List Nat) (st r : List Border × List Bool), j ∈ l →
      l.foldlM (colStep borders avg M) st = some r → avg.getD j (0, 0) ∈ r.1 := by
  intro l
  induction l with
  | nil =>
      intro st r hj
      cases hj
  | cons a l ih =>
      intro st r hj h
      rw [List.foldlM_cons] at h
      rcases List.mem_cons.mp hj with rfl | hj'
      · rw [colStep_of_sum_zero borders avg M st j h0] at h
        simp only [Option.pure_def, Option.bind_eq_bind, Option.some_bind] at h
        exact foldlM_colStep_mem borders avg M _ l _ r h
          (List.mem_append_right _ (by simp))
      · cases hst : colStep borders avg M st a with
        | none =>
            rw [hst] at h
            cases h
        | some st' =>
            rw [hst] at h
            simp only [Option.pure_def, Option.bind_eq_bind, Option.some_bind] at h
            exact ih st' r hj' h

theorem leftovers_set (borders : List Border) (added : List Bool) (i : Nat) (b' : Border)
    (hadd : added.getD i false = true) :
    leftovers (borders.set i b') added = leftovers borders added := by
  unfold leftovers
  rw [List.length_set]
  apply List.map_congr_left
  intro k hk
  rcases List.mem_filter.mp hk with ⟨_, hpk⟩
  have hik : i ≠ k := by
    intro h
    subst h
    rw [hadd] at hpk
    simp at hpk
  exact getD_set_ne borders i k b' (0, 0) hik

theorem b2ac_eq_some (matchF : Border → Border → Bool) (borders avg out : List Border)
    (h : border2average_correction matchF borders avg = some out) :
    ∃ em2 added',
      colPass borders avg (resolveMatrix (buildMatrix matchF borders avg))
        (addedFlags (resolveMatrix (buildMatrix matchF borders avg))) = some (em2, added')
      ∧ out = List.mergeSort
          (rowEmissions (resolveMatrix (buildMatrix matchF borders avg)) borders avg
            ++ em2 ++ leftovers borders added') lexLe := by
  simp only [border2average_correction] at h
  cases hres : colPass borders avg (resolveMatrix (buildMatrix matchF borders avg))
      (addedFlags (resolveMatrix (buildMatrix matchF borders avg))) with
  | none =>
      rw [hres] at h
      cases h
  | some p =>
      rcases p with ⟨em2, added'⟩
      rw [hres] at h
      exact ⟨em2, added', rfl, (Option.some_inj.mp h).symm⟩

/-! Lemmas on `border_correction`'s write-back and per-label correction. -/

theorem lexLe_trans : ∀ (a b c : Border), lexLe a b = true → lexLe b c = true →
    lexLe a c = true := by
  intro a b c hab hbc
  simp only [lexLe, Bool.or_eq_true, Bool.and_eq_true, decide_eq_true_eq] at *
  omega

theorem lexLe_total : ∀ (a b : Border), (lexLe a b || lexLe b a) = true := by
  intro a b
  simp only [lexLe, Bool.or_eq_true, Bool.and_eq_true, decide_eq_true_eq]
  omega

theorem b2ac_some_sorted (matchF : Border → Border → Bool) (borders avg out : List Border)
    (h : border2average_correction matchF borders avg = some out) :
    List.Pairwise (fun x y => lexLe x y = true) out := by
  rcases b2ac_eq_some matchF borders avg out h with ⟨em2, added', _, rfl⟩
  exact List.sorted_mergeSort lexLe_trans lexLe_total _

theorem setB_lookup_self (m : BMap) (k : Nat) (v : List Border) :
    (setB m k v).lookup k = some v := by
  induction m with
  | nil =>
      simp [setB]
  | cons p rest ih =>
      rcases p with ⟨k', v'⟩
      unfold setB
      by_cases hk : k' = k
      · rw [if_pos hk]
        simp
      · rw [if_neg hk]
        rw [List.lookup_cons, beq_false_of_ne (fun h => hk h.symm)]
        exact ih

theorem setB_lookup_ne (m : BMap) (k s : Nat) (v : List Border) (h : s ≠ k) :
    (setB m k v).lookup s = m.lookup s := by
  induction m with
  | nil =>
      simp [setB, List.lookup_cons, beq_false_of_ne h]
  | cons p rest ih =>
      rcases p with ⟨k', v'⟩
      unfold setB
      by_cases hk : k' = k
      · rw [if_pos hk]
        subst hk
        rw [List.lookup_cons, List.lookup_cons, beq_false_of_ne h]
      · rw [if_neg hk]
        by_cases hs : s = k'
        · subst hs
          rw [List.lookup_cons, List.lookup_cons]
          simp
        · rw [List.lookup_cons, List.lookup_cons, beq_false_of_ne hs]
          exact ih

theorem samples_ne (c : Component) (hnodup : c.samples.Nodup) (m k : Nat)
    (hm : m < c.samples.length) (hk : k < c.samples.length) (hne : m ≠ k) :
    c.samples.getD m 0 ≠ c.samples.getD k 0 := by
  rw [List.getD_eq_getElem?_getD, List.getElem?_eq_getElem hm,
    List.getD_eq_getElem?_getD, List.getElem?_eq_getElem hk]
  intro h
  exact hne ((hnodup.getElem_inj_iff).mp h)

theorem correctFold_preserves (c : Component) (label : Int) (avg : List Border) (s : Nat) :
    ∀ (l : List Nat) (sb sb' : BMap),
      (∀ m ∈ l, c.grouping.getD m 0 = label → c.samples.getD m 0 ≠ s) →
      l.foldlM (correctStep c label avg) sb = some sb' →
      sb'.lookup s = sb.lookup s := by
  intro l
  induction l with
  | nil =>
      intro sb sb' _ h
      cases h
      rfl
  | cons a l ih =>
      intro sb sb' hne h
      rw [List.foldlM_cons] at h
      cases hst : correctStep c label avg sb a with
      | none =>
          rw [hst] at h
          cases h
      | some sb1 =>
          rw [hst] at h
          simp only [Option.pure_def, Option.bind_eq_bind, Option.some_bind] at h
          have h1 : sb1.lookup s = sb.lookup s := by
            unfold correctStep at hst
            by_cases hg : c.grouping.getD a 0 = label
            · rw [if_pos hg] at hst
              cases hb : border2average_correction border_intersection
                  (lookupD sb (c.samples.getD a 0) []) avg with
              | none =>
                  rw [hb] at hst
                  cases hst
              | some v =>
                  rw [hb] at hst
                  cases hst
                  exact setB_lookup_ne sb (c.samples.getD a 0) s v
                    (fun hss => (hne a (by simp) hg) hss.symm)
            · rw [if_neg hg] at hst
              cases hst
              rfl
          rw [← h1]
          exact ih sb1 sb' (fun m hm => hne m (by simp [hm])) h

theorem correctFold_member (c : Component) (hnodup : c.samples.Nodup) (label : Int)
    (avg : List Border) :
    ∀ (l : List Nat) (sb sb' : BMap) (k : Nat),
      l.Nodup → (∀ m ∈ l, m < c.samples.length) → k ∈ l → k < c.samples.length →
      c.grouping.getD k 0 = label →
      l.foldlM (correctStep c label avg) sb = some sb' →
      ∃ v, sb'.lookup (c.samples.getD k 0) = some v
        ∧ List.Pairwise (fun x y => lexLe x y = true) v := by
  intro l
  induction l with
  | nil =>
      intro sb sb' k _ _ hk
      cases hk
  | cons a l ih =>
      intro sb sb' k hnd hml hk hkn hkg h
      rw [List.foldlM_cons] at h
      cases hst : correctStep c label avg sb a with
      | none =>
          rw [hst] at h
          cases h
      | some sb1 =>
          rw [hst] at h
          simp only [Option.pure_def, Option.bind_eq_bind, Option.some_bind] at h
          rcases List.mem_cons.mp hk with rfl | hk'
          · -- k = a : the write happens now, later steps do not touch the key
            have hknotin : k ∉ l := (List.nodup_cons.mp hnd).1
            unfold correctStep at hst
            rw [if_pos hkg] at hst
            cases hb : border2average_correction border_intersection
                (lookupD sb (c.samples.getD k 0) []) avg with
            | none =>
                rw [hb] at hst
                cases hst
            | some v =>
                rw [hb] at hst
                cases hst
                have hpres : sb'.lookup (c.samples.getD k 0)
                    = (setB sb (c.samples.getD k 0) v).lookup (c.samples.getD k 0) := by
                  apply correctFold_preserves c label avg _ l _ sb' ?_ h
                  intro m hm _
                  exact samples_ne c hnodup m k (hml m (by simp [hm])) hkn
                    (fun hmk => hknotin (hmk ▸ hm))
                rw [hpres, setB_lookup_self]
                exact ⟨v, rfl, b2ac_some_sorted _ _ _ v hb⟩
          · exact ih sb1 sb' k (List.nodup_cons.mp hnd).2
              (fun m hm => hml m (by simp [hm])) hk' hkn hkg h

theorem processLabel_some (c : Component) (hnodup : c.samples.Nodup)
    (st : BMap × BMap) (label : Int) (r : BMap × BMap)
    (h : processLabel c st label = some r) :
    r.2 = writeAll c r.1 st.2
    ∧ (∀ k, k < c.samples.length → c.grouping.getD k 0 = label →
        ∃ v, r.1.lookup (c.samples.getD k 0) = some v
          ∧ List.Pairwise (fun x y => lexLe x y = true) v)
    ∧ (∀ k, k < c.samples.length → c.grouping.getD k 0 ≠ label →
        r.1.lookup (c.samples.getD k 0) = st.1.lookup (c.samples.getD k 0)) := by
  simp only [processLabel] at h
  cases htr : totalRange c label with
  | none =>
      rw [htr] at h
      cases h
  | some p =>
      rcases p with ⟨tb, te⟩
      rw [htr] at h
      have h2 : (if (votingMask (memberLists c st.1 label) tb te).isEmpty = true then none
          else
            match correctLabel c label
                (consensusRuns (votingMask (memberLists c st.1 label) tb te) tb) st.1 with
            | none => none
            | some sb' => some (sb', writeAll c sb' st.2)) = some r := h
      clear h
      by_cases hm : (votingMask (memberLists c st.1 label) tb te).isEmpty
      · rw [if_pos hm] at h2
        cases h2
      · rw [if_neg hm] at h2
        cases hcl : correctLabel c label
            (consensusRuns (votingMask (memberLists c st.1 label) tb te) tb) st.1 with
        | none =>
            rw [hcl] at h2
            cases h2
        | some sb' =>
            rw [hcl] at h2
            cases h2
            have hcl' : (List.range c.samples.length).foldlM
                (correctStep c label
                  (consensusRuns (votingMask (memberLists c st.1 label) tb te) tb)) st.1
                = some sb' := hcl
            refine ⟨rfl, ?_, ?_⟩
            · intro k hk hkg
              exact correctFold_member c hnodup label _ (List.range c.samples.length)
                st.1 sb' k (List.nodup_range _) (fun m hm' => List.mem_range.mp hm')
                (List.mem_range.mpr hk) hk hkg hcl'
            · intro k hk hkg
              apply correctFold_preserves c label _ _ (List.range c.samples.length)
                st.1 sb' ?_ hcl'
              intro m hm' hmg
              exact samples_ne c hnodup m k (List.mem_range.mp hm') hk
                (fun hmk => hkg (hmk ▸ hmg))

theorem labelsFold_inv (c : Component) (hnodup : c.samples.Nodup) :
    ∀ (ls : List Int) (st r : BMap × BMap),
      ls.foldlM (processLabel c) st = some r →
      ∀ k, k < c.samples.length →
        (c.grouping.getD k 0 ∈ ls ∨
          ∃ v, st.1.lookup (c.samples.getD k 0) = some v
            ∧ List.Pairwise (fun x y => lexLe x y = true) v) →
        ∃ v, r.1.lookup (c.samples.getD k 0) = some v
          ∧ List.Pairwise (fun x y => lexLe x y = true) v := by
  intro ls
  induction ls with
  | nil =>
      intro st r h k hk hc
      cases h
      rcases hc with hc | hc
      · cases hc
      · exact hc
  | cons a ls ih =>
      intro st r h k hk hc
      rw [List.foldlM_cons] at h
      cases hpl : processLabel c st a with
      | none =>
          rw [hpl] at h
          cases h
      | some st' =>
          rw [hpl] at h
          simp only [Option.pure_def, Option.bind_eq_bind, Option.some_bind] at h
          rcases processLabel_some c hnodup st a st' hpl with ⟨_, hmem, hnon⟩
          apply ih st' r h k hk
          by_cases hkg : c.grouping.getD k 0 = a
          · right
            exact hmem k hk hkg
          · rcases hc with hc | ⟨v, hv, hs⟩
            · rcases List.mem_cons.mp hc with hc' | hc'
              · exact absurd hc' hkg
              · left
                exact hc'
            · right
              refine ⟨v, ?_, hs⟩
              rw [hnon k hk hkg]
              exact hv

theorem labelsFold_last_write (c : Component) (hnodup : c.samples.Nodup) :
    ∀ (ls : List Int) (st r : BMap × BMap), ls ≠ [] →
      ls.foldlM (processLabel c) st = some r →
      ∃ borPrev, r.2 = writeAll c r.1 borPrev := by
  intro ls
  induction ls with
  | nil =>
      intro st r hne
      exact absurd rfl hne
  | cons a ls ih =>
      intro st r _ h
      rw [List.foldlM_cons] at h
      cases hpl : processLabel c st a with
      | none =>
          rw [hpl] at h
          cases h
      | some st' =>
          rw [hpl] at h
          simp only [Option.pure_def, Option.bind_eq_bind, Option.some_bind] at h
          cases ls with
          | nil =>
              rw [List.foldlM_nil] at h
              simp only [Option.pure_def] at h
              cases h
              exact ⟨st.2, (processLabel_some c hnodup st a _ hpl).1⟩
          | cons b ls' =>
              exact ih st' r (by simp) h

theorem writeFold_preserves (c : Component) (sb : BMap) (s : Nat) :
    ∀ (l : List Nat) (bor : BMap), (∀ m ∈ l, c.samples.getD m 0 ≠ s) →
      (l.foldl (writeStep c sb) bor).lookup s = bor.lookup s := by
  intro l
  induction l with
  | nil =>
      intro bor _
      rfl
  | cons a l ih =>
      intro bor hne
      rw [List.foldl_cons, ih _ (fun m hm => hne m (by simp [hm]))]
      unfold writeStep
      exact setB_lookup_ne bor _ s _ (fun hss => (hne a (by simp)) hss.symm)

theorem writeFold_lookup (c : Component) (sb : BMap) (hnodup : c.samples.Nodup) :
    ∀ (l : List Nat) (bor : BMap) (k : Nat), l.Nodup →
      (∀ m ∈ l, m < c.samples.length) → k ∈ l → k < c.samples.length →
      (l.foldl (writeStep c sb) bor).lookup (c.samples.getD k 0)
        = some ((lookupD sb (c.samples.getD k 0) []).map
            (unshiftClamp ((c.rois.getD k dROI).scan.1 + c.shifts.getD k 0)
              (c.rois.getD k dROI).i.length)) := by
  intro l
  induction l with
  | nil =>
      intro bor k _ _ hk
      cases hk
  | cons a l ih =>
      intro bor k hnd hml hk hkn
      rw [List.foldl_cons]
      rcases List.mem_cons.mp hk with rfl | hk'
      · have hknotin : k ∉ l := (List.nodup_cons.mp hnd).1
        rw [writeFold_preserves c sb _ l _ ?hne]
        case hne =>
          intro m hm
          exact samples_ne c hnodup m k (hml m (by simp [hm])) hkn
            (fun hmk => hknotin (hmk ▸ hm))
        unfold writeStep
        exact setB_lookup_self bor _ _
      · exact ih _ k (List.nodup_cons.mp hnd).2 (fun m hm => hml m (by simp [hm])) hk' hkn

theorem writeAll_lookup (c : Component) (sb bor : BMap) (k : Nat)
    (hnodup : c.samples.Nodup) (hk : k < c.samples.length) :
    (writeAll c sb bor).lookup (c.samples.getD k 0)
      = some ((lookupD sb (c.samples.getD k 0) []).map
          (unshiftClamp ((c.rois.getD k dROI).scan.1 + c.shifts.getD k 0)
            (c.rois.getD k dROI).i.length)) :=
  writeFold_lookup c sb hnodup (List.range c.samples.length) bor k
    (List.nodup_range _) (fun _ hm => List.mem_range.mp hm) (List.mem_range.mpr hk) hk

theorem border_correction_eq_some (c : Component) (bmap out : BMap)
    (h : border_correction c bmap = some out) :
    ∃ sb0 r, shiftAll c bmap = some sb0
      ∧ (pyUnique c.grouping).foldlM (processLabel c) (sb0, bmap) = some r
      ∧ out = r.2 := by
  unfold border_correction at h
  cases h1 : shiftAll c bmap with
  | none =>
      rw [h1] at h
      cases h
  | some sb0 =>
      rw [h1] at h
      have hh : (match (pyUnique c.grouping).foldlM (processLabel c) (sb0, bmap) with
          | none => none
          | some r => some r.2) = some out := h
      clear h
      cases h2 : (pyUnique c.grouping).foldlM (processLabel c) (sb0, bmap) with
      | none =>
          rw [h2] at hh
          cases hh
      | some r =>
          rw [h2] at hh
          cases hh
          exact ⟨sb0, r, rfl, h2, rfl⟩

/-!
# Per-claim theorems
-/

/-- C6: whenever the sample's border count equals the consensus border
count, `border2average_correction` uses the identity matrix (no overlap test
is performed — the result does not depend on the matcher at all), and the
output is the input borders, sorted, unchanged. -/
theorem claim_C6 (matchF : Border → Border → Bool) (borders averaged_borders : List Border)
    (h : borders.length = averaged_borders.length) :
    border2average_correction matchF borders averaged_borders
      = some (List.mergeSort borders lexLe) := by
  have hM : buildMatrix matchF borders averaged_borders = eyeM borders.length := by
    unfold buildMatrix
    rw [if_pos h]
  have hcol : colPass borders averaged_borders (eyeM borders.length)
      (addedFlags (eyeM borders.length)) = some ([], addedFlags (eyeM borders.length)) := by
    unfold colPass
    apply foldlM_colStep_ones
    intro j hj
    have : j < borders.length := by
      rw [h]
      exact List.mem_range.mp hj
    exact colOf_eyeM_sum borders.length j this
  simp only [border2average_correction, hM, resolveMatrix_eyeM, hcol, rowEmissions_eyeM,
    leftovers_eyeM borders.length borders rfl, List.nil_append]

/-- C8: for any mask whose final position is inside a peak run, per-sample
segmentation emits no signal-space candidate reaching the final position
(every candidate ends strictly before `len(mask)`, and the merge pass of
`border_prediction` only deletes candidates), whereas the consensus-border
extraction of `border_correction` does close the trailing run, emitting a
final border whose end is `len(mask) + 1` plus `total_begin`. -/
theorem claim_C8 (mask : List Bool) (points L : Nat) (pmp : ℚ) (tb : Int)
    (hne : mask ≠ []) (hlast : mask.getLast? = some true) :
    (∀ p ∈ (segmentRuns mask points L pmp).1, p.2 < (mask.length : Int))
    ∧ ∃ bg, (consensusRuns mask tb).getLast? = some (bg, (mask.length : Int) + 1 + tb) := by
  constructor
  · intro p hp
    have hb := segScanM_sig_bound points L pmp mask 0
      (if mask.headD false then 0 else -1) (if mask.headD false then 1 else 0) [] []
      hlast (by simp) p hp
    simpa using hb
  · have hfin : (consensusScanM tb mask 0 (if mask.headD false then 0 else -1) []).1 ≠ -1 := by
      rw [consensusScanM_ne tb mask 0 _ [] hne ?inv]
      · exact hlast
      case inv =>
        by_cases hh : mask.headD false = true
        · rw [if_pos hh]
          simp only [ne_eq, hh, iff_true]
          omega
        · rw [if_neg hh]
          constructor
          · intro hc
            exact absurd rfl hc
          · intro hc
            exact absurd hc hh
    simp only [consensusRuns, if_pos hfin]
    exact ⟨(consensusScanM tb mask 0 (if mask.headD false then 0 else -1) []).1 + tb,
      List.getLast?_concat _⟩

/-- Witness for C8 on the mask `[false, true]`. -/
theorem claim_C8_witness :
    (∀ p ∈ (segmentRuns [false, true] 8 8 0).1, p.2 < (([false, true].length : Nat) : Int))
    ∧ ∃ bg, (consensusRuns [false, true] 5).getLast?
        = some (bg, (([false, true].length : Nat) : Int) + 1 + 5) :=
  claim_C8 [false, true] 8 8 0 5 (by decide) (by decide)

/-- C9: in the per-label acceptance step of `collapse_mzrtgroup`, a
candidate is merged iff the maximal correlation coefficient strictly exceeds
0.8 (a maximum of exactly 0.8 yields no merge), and the accepted candidate
is a position attaining that maximum and is not yet used. -/
theorem claim_C9 (maxCorr : List ℚ → List ℚ → ℚ) (idx2basepeak : Nat → List ℚ)
    (used : List Nat) (base_peak : List ℚ) (jdxs : List Nat) (hne : jdxs ≠ []) :
    ((∃ j, selectMatch maxCorr idx2basepeak used base_peak jdxs = some j)
       ↔ npMax (correlationTo maxCorr idx2basepeak used base_peak jdxs) > 8/10)
    ∧ (npMax (correlationTo maxCorr idx2basepeak used base_peak jdxs) = 8/10 →
        selectMatch maxCorr idx2basepeak used base_peak jdxs = none)
    ∧ (∀ j, selectMatch maxCorr idx2basepeak used base_peak jdxs = some j →
        ∃ nn, nn < jdxs.length ∧ j = jdxs.getD nn 0
          ∧ (correlationTo maxCorr idx2basepeak used base_peak jdxs).getD nn 0
              = npMax (correlationTo maxCorr idx2basepeak used base_peak jdxs)
          ∧ (∀ m, m < jdxs.length →
              (correlationTo maxCorr idx2basepeak used base_peak jdxs).getD m 0
                ≤ npMax (correlationTo maxCorr idx2basepeak used base_peak jdxs))
          ∧ j ∉ used) := by
  have hlen : (correlationTo maxCorr idx2basepeak used base_peak jdxs).length = jdxs.length :=
    List.length_map _ _
  have hcne : correlationTo maxCorr idx2basepeak used base_peak jdxs ≠ [] := by
    intro h0
    apply hne
    have hl := congrArg List.length h0
    rw [hlen] at hl
    exact List.length_eq_zero.mp hl
  refine ⟨?_, ?_, ?_⟩
  · constructor
    · rintro ⟨j, hj⟩
      by_contra hgt
      simp only [selectMatch, if_neg hgt] at hj
      exact Option.noConfusion hj
    · intro hgt
      exact ⟨jdxs.getD
        (npArgmax (correlationTo maxCorr idx2basepeak used base_peak jdxs)) 0,
        by simp only [selectMatch, if_pos hgt]⟩
  · intro heq
    have hno : ¬ npMax (correlationTo maxCorr idx2basepeak used base_peak jdxs) > 8/10 := by
      rw [heq]
      exact lt_irrefl _
    simp only [selectMatch, if_neg hno]
  · intro j hj
    have hgt : npMax (correlationTo maxCorr idx2basepeak used base_peak jdxs) > 8/10 := by
      by_contra hgt
      simp only [selectMatch, if_neg hgt] at hj
      exact Option.noConfusion hj
    have hj' : j = jdxs.getD
        (npArgmax (correlationTo maxCorr idx2basepeak used base_peak jdxs)) 0 := by
      simp only [selectMatch, if_pos hgt] at hj
      exact (Option.some_inj.mp hj).symm
    have hnn : npArgmax (correlationTo maxCorr idx2basepeak used base_peak jdxs)
        < jdxs.length := by
      have := npArgmax_lt _ hcne
      rw [hlen] at this
      exact this
    refine ⟨npArgmax (correlationTo maxCorr idx2basepeak used base_peak jdxs), hnn, hj',
      npMax_attained _ hcne, ?_, ?_⟩
    · intro m hm
      exact npMax_dominates _ m (by rw [hlen]; exact hm)
    · intro hused
      have hco : (correlationTo maxCorr idx2basepeak used base_peak jdxs).getD
          (npArgmax (correlationTo maxCorr idx2basepeak used base_peak jdxs)) 0 = 0 := by
        rw [correlationTo_getD maxCorr idx2basepeak used base_peak jdxs _ hnn]
        rw [← hj', if_pos hused]
      rw [npMax_attained _ hcne] at hco
      rw [hco] at hgt
      norm_num at hgt

/-- Witness for C9 with a constant correlation of 0.9 on the single
candidate 7. -/
theorem claim_C9_witness :
    ((∃ j, selectMatch (fun _ _ => 9/10) (fun _ => []) [] [] [7] = some j)
       ↔ npMax (correlationTo (fun _ _ => 9/10) (fun _ => []) [] [] [7]) > 8/10)
    ∧ (npMax (correlationTo (fun _ _ => 9/10) (fun _ => []) [] [] [7]) = 8/10 →
        selectMatch (fun _ _ => 9/10) (fun _ => []) [] [] [7] = none)
    ∧ (∀ j, selectMatch (fun _ _ => 9/10) (fun _ => []) [] [] [7] = some j →
        ∃ nn, nn < [7].length ∧ j = [7].getD nn 0
          ∧ (correlationTo (fun _ _ => 9/10) (fun _ => []) [] [] [7]).getD nn 0
              = npMax (correlationTo (fun _ _ => 9/10) (fun _ => []) [] [] [7])
          ∧ (∀ m, m < [7].length →
              (correlationTo (fun _ _ => 9/10) (fun _ => []) [] [] [7]).getD m 0
                ≤ npMax (correlationTo (fun _ _ => 9/10) (fun _ => []) [] [] [7]))
          ∧ j ∉ ([] : List Nat)) :=
  claim_C9 (fun _ _ => 9/10) (fun _ => []) [] [] [7] (by simp)

/-- C10 (amended): provided every member border lies rightward of
`total_begin` with `begin ≤ end` (so no NumPy slice index goes negative and
wraps) and each member's borders are pairwise non-overlapping, a scan
position enters the consensus mask iff strictly more than half of the
group's samples have a border covering it; in particular exactly half is
excluded. -/
theorem claim_C10 (memberBorders : List (List Border)) (tb te : Int) (p : Nat)
    (hmb : memberBorders ≠ [])
    (hwf : ∀ bs ∈ memberBorders, ∀ b ∈ bs, tb ≤ b.1 ∧ b.1 ≤ b.2)
    (hdisj : ∀ bs ∈ memberBorders, bs.Pairwise (fun a b => a.2 ≤ b.1 ∨ b.2 ≤ a.1))
    (hp : p < (te - tb).toNat) :
    ((votingMask memberBorders tb te).getD p false = true
      ↔ 2 * memberBorders.countP (fun bs => bs.any (coversAt tb p))
          > memberBorders.length) := by
  have hn : 0 < (memberBorders.length : ℚ) := by
    have : 0 < memberBorders.length := List.length_pos.mpr hmb
    exact_mod_cast this
  simp only [votingMask]
  rw [getD_map_of_lt _ _ p false 0
    (by rw [groupFold_length, List.length_replicate]; exact hp)]
  rw [groupFold_getD tb memberBorders _ p (by rw [List.length_replicate]; exact hp) hwf]
  have hrep : (List.replicate (te - tb).toNat (0 : ℚ)).getD p 0 = 0 := by
    rw [List.getD_eq_getElem?_getD, List.getElem?_eq_getElem (by simpa using hp)]
    simp
  have hsum : (memberBorders.map (fun bs => ((bs.countP (coversAt tb p)) : ℚ))).sum
      = (((memberBorders.map (fun bs => bs.countP (coversAt tb p))).sum : ℕ) : ℚ) := by
    norm_cast
    rw [List.map_map]
    rfl
  rw [hrep, zero_add, hsum, group_cover_sum tb p memberBorders hdisj]
  rw [decide_eq_true_eq, gt_iff_lt, div_lt_div_iff₀ (by norm_num) hn, one_mul]
  constructor
  · intro h
    have : memberBorders.length < memberBorders.countP (fun bs => bs.any (coversAt tb p)) * 2 := by
      exact_mod_cast h
    omega
  · intro h
    have : memberBorders.length < memberBorders.countP (fun bs => bs.any (coversAt tb p)) * 2 := by
      omega
    exact_mod_cast this

/-- Witness for C10: two members, both covering scan 10, window `[10,14)`. -/
theorem claim_C10_witness :
    ((votingMask [[(10, 12)], [(10, 11)]] 10 14).getD 0 false = true
      ↔ 2 * [[((10 : Int), (12 : Int))], [(10, 11)]].countP (fun bs => bs.any (coversAt 10 0))
          > [[((10 : Int), (12 : Int))], [(10, 11)]].length) :=
  claim_C10 [[(10, 12)], [(10, 11)]] 10 14 0 (by decide) (by decide) (by decide) (by decide)

/-- C7 (amended): if two samples of the same similarity-group label have
differing border-list lengths and the label's computed `peak_number` (the
border count of the label's last member) is nonzero, `build_features` fails
with the assertion (returns `none`); the zero-`peak_number` case, where the
peak loop and its assertion never run, is excluded by hypothesis. -/
theorem claim_C7 (c : Component) (bmap : BMap) (g : Int) (i j pn : Nat)
    (bi bj : List Border)
    (hlen : c.samples.length = c.grouping.length)
    (hi : i < c.samples.length) (hj : j < c.samples.length)
    (hlab : c.grouping.getD j 0 = c.grouping.getD i 0)
    (hbi : bmap.lookup (c.samples.getD i 0) = some bi)
    (hbj : bmap.lookup (c.samples.getD j 0) = some bj)
    (hdiff : bi.length ≠ bj.length)
    (hpn : peakNumber c bmap (c.grouping.getD i 0) = some (some pn))
    (hpn0 : 0 < pn) :
    build_features c bmap g = none := by
  have hmem : ∃ m, m < c.samples.length ∧ c.grouping.getD m 0 = c.grouping.getD i 0
      ∧ ∃ bm, bmap.lookup (c.samples.getD m 0) = some bm ∧ bm.length ≠ pn := by
    by_cases hbi' : bi.length = pn
    · exact ⟨j, hj, hlab, bj, hbj, by omega⟩
    · exact ⟨i, hi, rfl, bi, hbi, hbi'⟩
  obtain ⟨m, hm, hmlab, bm, hbm, hbmne⟩ := hmem
  have hstep : ∀ st, buildStep c bmap (frequencyOf c) (c.grouping.getD i 0) pn 0 st m
      = none := by
    intro st
    unfold buildStep
    rw [if_pos hmlab, hbm]
    simp [hbmne]
  have hmember : (List.range c.samples.length).foldlM
      (buildStep c bmap (frequencyOf c) (c.grouping.getD i 0) pn 0) emptyBuildState
      = none :=
    foldlM_option_none _ _ m (List.mem_range.mpr hm) hstep emptyBuildState
  have hbl : buildLabel c bmap (frequencyOf c) g (c.grouping.getD i 0) = none := by
    unfold buildLabel
    rw [hpn]
    apply foldlM_option_none _ _ 0 (List.mem_range.mpr hpn0)
    intro feats
    rw [hmember]
  have hgi : i < c.grouping.length := by omega
  have hlabmem : c.grouping.getD i 0 ∈ pyUnique c.grouping := by
    unfold pyUnique
    rw [List.mem_dedup, List.mem_mergeSort]
    rw [List.getD_eq_getElem?_getD, List.getElem?_eq_getElem hgi]
    exact List.getElem_mem hgi
  simp only [build_features]
  exact foldlM_option_none _ _ (c.grouping.getD i 0) hlabmem (fun feats => by rw [hbl]) []

/-- Witness for C7: member counts 2 and 1 under label 5 make
`build_features` fail. -/
theorem claim_C7_witness :
    build_features compPk [(0, [(0, 1), (1, 2)]), (1, [(0, 1)])] 0 = none :=
  claim_C7 compPk [(0, [(0, 1), (1, 2)]), (1, [(0, 1)])] 0 0 1 1
    [(0, 1), (1, 2)] [(0, 1)] (by decide) (by decide) (by decide) (by decide)
    (by decide) (by decide) (by decide) (by with_unfolding_all decide) (by decide)

/-- C5 (amended): provided the sample and consensus border counts differ (so
the intersection matrix is actually computed), a sample border that matches
no consensus border is dropped entirely — the output does not depend on its
value at all (replacing it by any other non-matching border leaves the
output unchanged) — and a consensus border that no sample border matches is
emitted verbatim into the output. -/
theorem claim_C5 (matchF : Border → Border → Bool) (borders avg : List Border)
    (i : Nat) (b' : Border) (j : Nat)
    (hne : borders.length ≠ avg.length)
    (hi : i < borders.length)
    (h0 : ∀ a ∈ avg, matchF (borders.getD i (0, 0)) a = false)
    (hb' : ∀ a ∈ avg, matchF b' a = false)
    (hj : j < avg.length)
    (hcol : ∀ b ∈ borders, matchF b (avg.getD j (0, 0)) = false) :
    border2average_correction matchF (borders.set i b') avg
        = border2average_correction matchF borders avg
    ∧ ∀ out, border2average_correction matchF borders avg = some out →
        avg.getD j (0, 0) ∈ out := by
  have hz : ∀ (b : Border), (∀ a ∈ avg, matchF b a = false) →
      avg.map (fun a => if matchF b a then 1 else 0) = avg.map (fun _ => (0 : Nat)) := by
    intro b hb
    apply List.map_congr_left
    intro a ha
    rw [hb a ha]
    simp
  have hMeq : buildMatrix matchF (borders.set i b') avg = buildMatrix matchF borders avg := by
    unfold buildMatrix
    rw [if_neg (by rw [List.length_set]; exact hne), if_neg hne, List.map_set]
    apply set_eq_self_of_getD _ i _ [] (by rw [List.length_map]; exact hi)
    rw [getD_map_of_lt _ borders i [] (0, 0) hi]
    rw [hz _ h0, hz _ hb']
  have hrowz : ∀ c, getM (resolveMatrix (buildMatrix matchF borders avg)) i c = 0 := by
    intro c
    have h1 := getM_resolveMatrix_le (buildMatrix matchF borders avg) i c
    have h2 := buildMatrix_row_zero matchF borders avg i hne hi h0 c
    omega
  have hcolz : ∀ r, getM (resolveMatrix (buildMatrix matchF borders avg)) r j = 0 := by
    intro r
    have h1 := getM_resolveMatrix_le (buildMatrix matchF borders avg) r j
    have h2 := buildMatrix_col_zero matchF borders avg j hne hcol r
    omega
  have hrowsum : ((resolveMatrix (buildMatrix matchF borders avg)).getD i []).sum = 0 :=
    rowSum_zero_of_getM _ i hrowz
  have hcolsum : (colOf (resolveMatrix (buildMatrix matchF borders avg)) j).sum = 0 :=
    colSum_zero_of_getM _ j hcolz
  have hMlen : (resolveMatrix (buildMatrix matchF borders avg)).length = borders.length := by
    rw [resolveMatrix_length, buildMatrix_length]
  have haddi : (addedFlags (resolveMatrix (buildMatrix matchF borders avg))).getD i false
      = true := by
    unfold addedFlags
    rw [getD_map_of_lt _ _ i false [] (by rw [hMlen]; exact hi)]
    rw [hrowsum]
    simp
  constructor
  · simp only [border2average_correction, hMeq]
    have hcp : colPass (borders.set i b') avg (resolveMatrix (buildMatrix matchF borders avg))
        (addedFlags (resolveMatrix (buildMatrix matchF borders avg)))
        = colPass borders avg (resolveMatrix (buildMatrix matchF borders avg))
            (addedFlags (resolveMatrix (buildMatrix matchF borders avg))) := by
      unfold colPass
      exact foldlM_congr _ _ _
        (fun st x => colStep_set_ne borders avg _ i b' hrowz st x) _
    rw [hcp, rowEmissions_set _ borders avg i b' hi hrowsum]
    cases hres : colPass borders avg (resolveMatrix (buildMatrix matchF borders avg))
        (addedFlags (resolveMatrix (buildMatrix matchF borders avg))) with
    | none => rfl
    | some p =>
        rcases p with ⟨em2, added'⟩
        have hadded' : added'.getD i false = true :=
          foldlM_colStep_added_true borders avg _ i _ _ (em2, added') hres haddi
        show some (List.mergeSort
            (rowEmissions (resolveMatrix (buildMatrix matchF borders avg)) borders avg
              ++ em2 ++ leftovers (borders.set i b') added') lexLe)
          = some (List.mergeSort
            (rowEmissions (resolveMatrix (buildMatrix matchF borders avg)) borders avg
              ++ em2 ++ leftovers borders added') lexLe)
        rw [leftovers_set borders added' i b' hadded']
  · intro out hout
    rcases b2ac_eq_some matchF borders avg out hout with ⟨em2, added', hres, hmsort⟩
    have hmem : avg.getD j (0, 0) ∈ em2 := by
      unfold colPass at hres
      exact foldlM_colStep_processes borders avg _ j hcolsum _ _ (em2, added')
        (List.mem_range.mpr hj) hres
    rw [hmsort, List.mem_mergeSort]
    exact List.mem_append_left _ (List.mem_append_right _ hmem)

/-- Witness for C5: two sample borders against one consensus border; the
first sample border matches nothing and is value-irrelevant, the consensus
border (matched by nothing) is inserted. -/
theorem claim_C5_witness :
    border2average_correction border_intersection ([((0 : Int), (2 : Int)), (30, 40)].set 0
        (100, 101)) [(5, 8)]
      = border2average_correction border_intersection [((0 : Int), (2 : Int)), (30, 40)]
          [(5, 8)]
    ∧ ∀ out, border2average_correction border_intersection [((0 : Int), (2 : Int)), (30, 40)]
          [(5, 8)] = some out →
        ([((5 : Int), (8 : Int))].getD 0 (0, 0)) ∈ out :=
  claim_C5 border_intersection [(0, 2), (30, 40)] [(5, 8)] 0 (100, 101) 0
    (by decide) (by decide) (by with_unfolding_all decide) (by with_unfolding_all decide)
    (by decide) (by with_unfolding_all decide)

/-- C4 (amended): after `border_correction` returns, every component
sample's border list is sorted by start position and clamped — each begin is
at least 0 and each end at most `len(roi.i)`; pairwise non-overlap is not
guaranteed (see the counterexample). -/
theorem claim_C4 (c : Component) (bmap out : BMap) (k : Nat)
    (hnodup : c.samples.Nodup)
    (hlen : c.samples.length = c.grouping.length)
    (hout : border_correction c bmap = some out)
    (hk : k < c.samples.length) :
    ∃ l, out.lookup (c.samples.getD k 0) = some l
      ∧ List.Pairwise (fun x y : Border => x.1 ≤ y.1) l
      ∧ ∀ b ∈ l, 0 ≤ b.1 ∧ b.2 ≤ ((c.rois.getD k dROI).i.length : Int) := by
  rcases border_correction_eq_some c bmap out hout with ⟨sb0, r, hsft, hfold, hout2⟩
  have hkg : k < c.grouping.length := by omega
  have hlabmem : c.grouping.getD k 0 ∈ pyUnique c.grouping := by
    unfold pyUnique
    rw [List.mem_dedup, List.mem_mergeSort]
    rw [List.getD_eq_getElem?_getD, List.getElem?_eq_getElem hkg]
    exact List.getElem_mem hkg
  have hlne : pyUnique c.grouping ≠ [] := by
    intro h0
    rw [h0] at hlabmem
    cases hlabmem
  rcases labelsFold_inv c hnodup (pyUnique c.grouping) (sb0, bmap) r hfold k hk
    (Or.inl hlabmem) with ⟨v, hv, hvs⟩
  rcases labelsFold_last_write c hnodup (pyUnique c.grouping) (sb0, bmap) r hlne hfold
    with ⟨borPrev, hbw⟩
  have hvd : lookupD r.1 (c.samples.getD k 0) [] = v := by
    unfold lookupD
    rw [hv]
    rfl
  rw [hout2, hbw, writeAll_lookup c r.1 borPrev k hnodup hk, hvd]
  refine ⟨_, rfl, ?_, ?_⟩
  · refine List.Pairwise.map _ ?_ hvs
    intro a b hab
    have h1 : a.1 ≤ b.1 := by
      simp only [lexLe, Bool.or_eq_true, Bool.and_eq_true, decide_eq_true_eq] at hab
      omega
    unfold unshiftClamp
    simp only []
    omega
  · intro b hb
    rcases List.mem_map.mp hb with ⟨a, _, rfl⟩
    unfold unshiftClamp
    exact ⟨le_max_right _ _, min_le_right _ _⟩

/-- Witness for C4 on a well-formed single-sample component. -/
theorem claim_C4_witness :
    ∃ l, ([((0 : Nat), [((1 : Int), (3 : Int))])] : BMap).lookup (compOne.samples.getD 0 0)
        = some l
      ∧ List.Pairwise (fun x y : Border => x.1 ≤ y.1) l
      ∧ ∀ b ∈ l, 0 ≤ b.1 ∧ b.2 ≤ ((compOne.rois.getD 0 dROI).i.length : Int) :=
  claim_C4 compOne [(0, [(1, 3)])] [(0, [(1, 3)])] 0 (by decide) (by decide)
    (by with_unfolding_all decide) (by decide)

/-- Witness for C6 at a concrete unsorted input. -/
theorem claim_C6_witness :
    border2average_correction border_intersection [((3 : Int), (4 : Int)), (0, 1)]
        [(7, 8), (9, 12)]
      = some (List.mergeSort [((3 : Int), (4 : Int)), (0, 1)] lexLe) :=
  claim_C6 border_intersection [(3, 4), (0, 1)] [(7, 8), (9, 12)] (by decide)

/-- C1: in `border2average_correction`, for a row matching two consensus
columns the source emits, at the last matched column,
`[max(sample_end, consensus_end), sample_end]` — a degenerate interval —
instead of the union of extents ending at `max(sample_end, consensus_end)`.
At sample borders `[[0,10]]` against consensus `[[0,4],[6,10]]` the output's
last border is `(10,10)`, not the merged `(6,10)` the claim describes. -/
theorem claim_C1 :
    border2average_correction border_intersection [((0 : Int), (10 : Int))] [(0, 4), (6, 10)]
      = some [(0, 4), (10, 10)]
    ∧ ((6, 10) : Border) ∉ [((0, 4) : Border), (10, 10)]
    ∧ ¬ ((10 : Int) < 10) := by
  with_unfolding_all decide

/-- C2: in the splitter-gap merge pass of `border_prediction` the deletion
decision sums `roi.i[borders_roi[k][0] : borders_signal[k][1]]`, mixing
original-scan and resampled-signal index spaces, rather than the candidate's
own border `[begin', end')`.  On this input the two candidates are `(1,6)`
and `(7,12)` in scan space; the second has the larger intensity within its
border (45 against 5), yet it is the one deleted: the survivor is `(1,6)`,
contradicting the claim that the smaller-intensity candidate is deleted. -/
theorem claim_C2 :
    (segmentRuns [true, true, false, true, true, false, false, false] 8 16 3).2
      = [(1, 6), (7, 12)]
    ∧ border_prediction [0, 1, 1, 1, 1, 1, 0, 9, 9, 9, 9, 9, 0, 0, 0, 0]
        [true, true, false, true, true, false, false, false] (List.replicate 8 0) 8 3 (95/100)
      = some [(1, 6)]
    ∧ (pySlice [(0 : ℚ), 1, 1, 1, 1, 1, 0, 9, 9, 9, 9, 9, 0, 0, 0, 0] 1 6).sum
        < (pySlice [(0 : ℚ), 1, 1, 1, 1, 1, 0, 9, 9, 9, 9, 9, 0, 0, 0, 0] 7 12).sum := by
  with_unfolding_all decide

/-- C3: `build_features` updates the running mean as
`mz = (mz * i + mzmean) / (i + 1)` with `i` the position in the component's
sample list, not the number of members accumulated so far.  With members of
label 0 at positions 0 and 2 (mzmeans 10 and 16), the produced Feature has
`mz = (10*2 + 16)/3 = 12`, not the arithmetic mean `13` over the members. -/
theorem claim_C3 :
    (build_features compMz bmapMz 0).map (fun fs => (fs.getD 0 (emptyFeature 0)).mz)
      = some (some 12)
    ∧ (12 : ℚ) ≠ (10 + 16) / 2 := by
  with_unfolding_all decide

/-- C4 counterexample: `border_correction` can return a border list that is
not pairwise non-overlapping.  With three samples of one group, sample 0
keeps its own border `(0,6)` (one-to-one) while the unmatched consensus
border `(5,13)` is inserted and clamped to `(5,12)`; the two returned
intervals `(0,6)` and `(5,12)` overlap on `[5,6)`. -/
theorem claim_C4_counterexample :
    border_correction compOverlap bmapOverlap
      = some [(0, [(0, 6), (5, 12)]), (1, [(0, 4), (5, 12)]), (2, [(0, 4), (5, 12)])]
    ∧ ¬ ((6 : Int) ≤ 5 ∨ (12 : Int) ≤ 0) := by
  with_unfolding_all decide

/-- C5 counterexample: when the sample and consensus border counts are
equal, `border2average_correction` takes the identity-matrix fast path and
performs no overlap test, so a sample border overlapping no consensus border
survives and the unmatched consensus border is not emitted: with borders
`[[0,2]]` against consensus `[[10,12]]` the output is `[[0,2]]`. -/
theorem claim_C5_counterexample :
    border2average_correction border_intersection [((0 : Int), (2 : Int))] [(10, 12)]
      = some [(0, 2)]
    ∧ border_intersection (0, 2) (10, 12) = false := by
  with_unfolding_all decide

/-- C7 counterexample: two samples of label 5 disagree on peak count (2
against 0), yet `build_features` returns successfully (an empty feature
list): `peak_number` is taken from the last member, and a zero value makes
the peak loop — and with it the assertion — never run. -/
theorem claim_C7_counterexample :
    build_features compPk bmapPk 0 = some []
    ∧ (lookupD bmapPk 0 []).length = 2
    ∧ (lookupD bmapPk 1 []).length = 0 := by
  with_unfolding_all decide

/-- C10 counterexample: a member border beginning left of `total_begin`
produces a negative NumPy slice index, which wraps around: the border
`(8,13)` against `total_begin = 10` increments nothing, so scan 10 —
covered by both of the two members — fails the vote (1 of 2) and is
excluded from the consensus mask. -/
theorem claim_C10_counterexample :
    (votingMask [[(10, 13)], [(8, 13)]] 10 20).getD 0 false = false
    ∧ ((10 : Int) ≤ 10 ∧ (10 : Int) < 13)
    ∧ ((8 : Int) ≤ 10 ∧ (10 : Int) < 13)
    ∧ 2 * 2 > 2 := by
  with_unfolding_all decide

end Peakonly
